import Mathlib

/-!
# Motion detection (kannanshruti/Motion_detection): embedding of `motion_detection.cpp`

The C++ class `motion_detection` holds three scalars `theta`, `sigma_s`, `T` and offers
`abs_difference`, `fixed_threshold`, `get_neighbour_count`, `variable_threshold1` and
`variable_threshold2` over single-channel 8-bit OpenCV matrices.

Modelling choices.
* `cv::Mat` of type `CV_8UC1` is a record of `rows`, `cols` and a cell function
  `data i j` (the value read by `at<uchar>(i, j)`); a write `at<uchar>(i, j) = v` is `Mat.set`.
  Cells outside `rows × cols` are not part of the matrix; every matrix built here keeps them at 0.
* The `float`/`double` arithmetic of the threshold expressions is not fixed: every operation
  the source applies there (`5 * sigma_s`, `(n1.Qs - n1.Qm) / T`, the `double` product, quotient
  and sum, `pow(x, 2)`, `log`, the comparison `psi > thresh`) is a field of `Arith F`, and the
  classifiers are defined over an arbitrary `Arith F`.  A theorem stated for every `ar : Arith F`
  therefore holds whatever these operations return (rounding, overflow to an infinity, NaN,
  division by zero); the one law of `Arith` is that `x > x` is false.
* `exactArith ln` is the arithmetic without rounding of a linearly ordered field, with `ln` for
  `log`; it is used for the concrete scenarios whose comparisons have wide margins.
* `ieeeArith ln` is the arithmetic of IEEE 754 with round-to-nearest-even: `float` is binary32,
  `double` is binary64, with subnormal numbers, overflow to an infinity and NaN.  A value is a
  number of the field, `+inf`, `-inf` or NaN (`Fl`); the two zeros are not told apart, so a
  division by zero takes the sign of the dividend.  An `int` operand of a `float` operation is
  converted to `float` first and the operation is rounded to `float` (`5 * sigma_s`,
  `(n1.Qs - n1.Qm) / T`); every other operation of the threshold expressions is a `double`
  operation, no intermediate result being kept in a wider format.  `log` and `pow(x, 2)` are
  the `double` functions of `<cmath>` (a `float` or `uchar` argument is promoted to `double`),
  taken as correctly rounded.  The theorems about rounding instantiate the field with the real
  numbers and `ln` with `Real.log`.
* `throw invalid_argument(...)` is `Except.error`.
* `for (int i = 0; i < n; i++) body` is `forLoop n body`.
-/

namespace MotionDetection

/-! ## Definitions -/

/-- Single-channel 8-bit matrix (`cv::Mat`, `CV_8UC1`). -/
structure Mat where
  rows : Nat
  cols : Nat
  data : Nat → Nat → Nat

/-- Read of `m.at<uchar>(i, j)`. -/
def Mat.get (m : Mat) (i j : Nat) : Nat := m.data i j

/-- Write `m.at<uchar>(i, j) = v`. -/
def Mat.set (m : Mat) (i j v : Nat) : Mat :=
  { m with data := fun r c => if r = i ∧ c = j then v else m.data r c }

/-- The call `Mat::zeros(Size(cols, rows), CV_8UC1)`. -/
def Mat.zeros (rows cols : Nat) : Mat := ⟨rows, cols, fun _ _ => 0⟩

/-- Every cell of the grid is an 8-bit value. -/
def Mat.u8 (m : Mat) : Prop := ∀ i j, i < m.rows → j < m.cols → m.data i j ≤ 255

/-- The struct `neighbours` of `motion_detection.h`. -/
structure neighbours where
  Qs : Int := 0
  Qm : Int := 0
deriving DecidableEq

/-- The fields of class `motion_detection` (three `float`s), over the type `F` of floating-point
values. -/
structure motion_detection (F : Type) where
  theta : F
  sigma_s : F
  T : F

/-- The floating-point operations applied by the threshold expressions of `fixed_threshold`,
`variable_threshold1` and `variable_threshold2`.  `F` holds the values of `float` and of `double`
(the conversion from `float` to `double` changes no value).  The results of these operations
(rounded, infinite, NaN) are whatever the arithmetic returns; the one law kept is that the
comparison is strict. -/
structure Arith (F : Type) where
  /-- The product `n * x` of an `int` and a `float`: `5 * sigma_s`. -/
  imulf : Int → F → F
  /-- The quotient `n / x` of an `int` by a `float`: `(n1.Qs - n1.Qm) / T`. -/
  idivf : Int → F → F
  /-- The literal `2.0`. -/
  two : F
  /-- The `double` product `x * y`. -/
  mul : F → F → F
  /-- The `double` quotient `x / y`. -/
  div : F → F → F
  /-- The `double` sum `x + y`. -/
  add : F → F → F
  /-- The call `pow(x, 2)` on a `float`: `pow(sigma_s, 2)`. -/
  pow2 : F → F
  /-- The call `pow(c, 2)` on a `uchar` cell: `pow(result.at<uchar>(i, j), 2)`. -/
  pow2u : Nat → F
  /-- The call `log(x)` of `<cmath>`. -/
  log : F → F
  /-- The comparison `x > y`. -/
  gt : F → F → Bool
  /-- The comparison is strict: `x > x` is false for every value (in IEEE 754 also for an
  infinity and for NaN). -/
  gt_irrefl : ∀ x : F, gt x x = false

/-- Arithmetic without rounding in a linearly ordered field `K`, with `ln` for `log`. -/
def exactArith {K : Type} [LinearOrderedField K] (ln : K → K) : Arith K where
  imulf n x := (n : K) * x
  idivf n x := (n : K) / x
  two := 2
  mul x y := x * y
  div x y := x / y
  add x y := x + y
  pow2 x := x ^ 2
  pow2u c := (c : K) ^ 2
  log := ln
  gt x y := decide (x > y)
  gt_irrefl x := decide_eq_false (lt_irrefl x)

/-- The loop `for (int i = 0; i < n; i++) s = body(i, s)`. -/
def forLoop {σ : Type} : Nat → (Nat → σ → σ) → σ → σ
  | 0, _, s => s
  | n + 1, body, s => body n (forLoop n body s)

/-- The call `cv::absdiff(src1, src2, dst)` on `CV_8UC1`: `dst(I) = saturate_cast<uchar>(|src1(I) - src2(I)|)`,
with `dst` (re)allocated to the size of `src1`. -/
def absdiff (src1 src2 : Mat) : Mat :=
  { rows := src1.rows
    cols := src1.cols
    data := fun i j =>
      if i < src1.rows ∧ j < src1.cols then
        min (Int.natAbs ((src1.data i j : Int) - (src2.data i j : Int))) 255
      else 0 }

/-- The test `img1.size != img2.size`. -/
def sizeNe (img1 img2 : Mat) : Bool :=
  img1.rows != img2.rows || img1.cols != img2.cols

/-- The message of the `invalid_argument` thrown on frames of different size. -/
def sizeError : String := "Images should be of same size"

/-- Source lines 35-46: `motion_detection::abs_difference`. -/
def abs_difference (img1 img2 : Mat) : Except String Mat :=
  if sizeNe img1 img2 then .error sizeError
  else
    -- `result` is first `Mat::zeros(Size(img1.cols, img1.rows), CV_8UC1)`, then overwritten by `absdiff`
    .ok (absdiff img2 img1)

/-- Source lines 48-70: `motion_detection::fixed_threshold` (the `cout` line only prints the
threshold and is left out).  The floating-point operations are those of `ar`, applied in the
order and with the operand types of the source. -/
def fixed_threshold {F : Type} (ar : Arith F) (md : motion_detection F)
    (img1 img2 : Mat) : Except String Mat :=
  let sigma_m : F := ar.imulf 5 md.sigma_s
  if sizeNe img1 img2 then .error sizeError
  else
    match abs_difference img1 img2 with
    | .error e => .error e
    | .ok result =>
      let threshold : F :=
        ar.mul (ar.mul ar.two (ar.pow2 md.sigma_s))
          (ar.log (ar.div (ar.mul md.theta sigma_m) md.sigma_s))
      .ok (forLoop img1.rows (fun i result =>
        forLoop img1.cols (fun j result =>
          let psi : F := ar.pow2u (result.get i j)
          if ar.gt psi threshold then result.set i j 255
          else result.set i j 0) result) result)

/-- One pass of the inner body of `get_neighbour_count` (source lines 86-96) for offsets `i`, `j`. -/
def visit (img : Mat) (row col : Int) (num_neighbours : Int) (i j : Int) (n1 : neighbours) :
    neighbours :=
  if i = 0 ∧ j = 0 then n1
  else if row + i < 0 ∨ row + i ≥ img.rows ∨ col + j < 0 ∨ col + j ≥ img.cols then n1
  else
    let n1 :=
      if num_neighbours = 4 ∧ |i + j| = 1 then
        if img.get (row + i).toNat (col + j).toNat ≠ 0 then { n1 with Qm := n1.Qm + 1 }
        else { n1 with Qs := n1.Qs + 1 }
      else n1
    if num_neighbours = 8 then
      if img.get (row + i).toNat (col + j).toNat ≠ 0 then { n1 with Qm := n1.Qm + 1 }
      else { n1 with Qs := n1.Qs + 1 }
    else n1

/-- Source lines 72-100: `motion_detection::get_neighbour_count`. -/
def get_neighbour_count (img : Mat) (row col : Int) (num_neighbours : Int) : neighbours :=
  ([-1, 0, 1] : List Int).foldl (fun n1 i =>
    ([-1, 0, 1] : List Int).foldl (fun n1 j => visit img row col num_neighbours i j n1) n1) {}

/-- The body of the pixel loop of `variable_threshold1`/`variable_threshold2`
(source lines 121-125 and 151-155), for neighbourhood order `order`.  The floating-point
operations are those of `ar`; `(n1.Qs - n1.Qm) / T` is the quotient of an `int` by a `float`. -/
def pixel_update {F : Type} (ar : Arith F) (md : motion_detection F)
    (order : Int) (abs_diff : Mat) (i j : Nat) (result : Mat) : Mat :=
  let sigma_m : F := ar.imulf 5 md.sigma_s
  let n1 := get_neighbour_count result i j order
  let thresh : F :=
    ar.mul (ar.mul ar.two (ar.pow2 md.sigma_s))
      (ar.add (ar.log (ar.div (ar.mul md.theta sigma_m) md.sigma_s))
        (ar.idivf (n1.Qs - n1.Qm) md.T))
  let psi : F := ar.pow2u (abs_diff.get i j)
  if ar.gt psi thresh then result.set i j 255
  else result.set i j 0

/-- One round (one value of `iter`) of the adaptive loop: the `i`/`j` loops of
source lines 119-127 and 149-157. -/
def adaptive_round {F : Type} (ar : Arith F) (md : motion_detection F)
    (order : Int) (abs_diff : Mat) (rows cols : Nat) (result : Mat) : Mat :=
  forLoop rows (fun i result =>
    forLoop cols (fun j result => pixel_update ar md order abs_diff i j result) result) result

/-- The common text of `variable_threshold1` and `variable_threshold2`, which differ only in the
order passed to `get_neighbour_count`. -/
def variable_threshold {F : Type} (ar : Arith F) (md : motion_detection F)
    (order : Int) (img1 img2 : Mat) (iterations : Int) : Except String Mat :=
  if sizeNe img1 img2 then .error sizeError
  else
    match abs_difference img1 img2 with
    | .error e => .error e
    | .ok abs_diff =>
      let result := abs_diff
      .ok (forLoop iterations.toNat (fun _ result =>
        adaptive_round ar md order abs_diff img1.rows img1.cols result) result)

/-- Source lines 102-130: `motion_detection::variable_threshold1` (order 4). -/
def variable_threshold1 {F : Type} (ar : Arith F) (md : motion_detection F)
    (img1 img2 : Mat) (iterations : Int) : Except String Mat :=
  variable_threshold ar md 4 img1 img2 iterations

/-- Source lines 132-160: `motion_detection::variable_threshold2` (order 8). -/
def variable_threshold2 {F : Type} (ar : Arith F) (md : motion_detection F)
    (img1 img2 : Mat) (iterations : Int) : Except String Mat :=
  variable_threshold ar md 8 img1 img2 iterations

/-- The value written at pixel `(i, j)` by `pixel_update`, as a function of the current grid. -/
def adaptive_value {F : Type} (ar : Arith F) (md : motion_detection F)
    (order : Int) (abs_diff : Mat) (i j : Nat) (result : Mat) : Nat :=
  let n1 := get_neighbour_count result i j order
  if ar.gt (ar.pow2u (abs_diff.get i j))
      (ar.mul (ar.mul ar.two (ar.pow2 md.sigma_s))
        (ar.add (ar.log (ar.div (ar.mul md.theta (ar.imulf 5 md.sigma_s)) md.sigma_s))
          (ar.idivf (n1.Qs - n1.Qm) md.T)))
  then 255 else 0

/-- Row `i` of a sweep that writes `w i j r` at `(i, j)`, stopped before column `l`. -/
def rowPre (w : Nat → Nat → Mat → Nat) (i l : Nat) (r : Mat) : Mat :=
  forLoop l (fun j r => r.set i j (w i j r)) r

/-- A sweep over rows of width `cols`, stopped before row `k`. -/
def sweepPre (w : Nat → Nat → Mat → Nat) (cols k : Nat) (M : Mat) : Mat :=
  forLoop k (fun i r => rowPre w i cols r) M

/-- The grid as it stands when the sweep reaches pixel `(i, j)`. -/
def pre (w : Nat → Nat → Mat → Nat) (cols i j : Nat) (M : Mat) : Mat :=
  rowPre w i j (sweepPre w cols i M)

/-- Row-major order on pixel positions: `(r, c)` is visited before `(i, j)`. -/
def before (r c i j : Nat) : Prop := r < i ∨ (r = i ∧ c < j)

instance (r c i j : Nat) : Decidable (before r c i j) := by unfold before; infer_instance

/-- The grid that holds `M'` at every position before `(i, j)` and `M` elsewhere. -/
def hybrid (M' M : Mat) (i j : Nat) : Mat :=
  { rows := M.rows
    cols := M.cols
    data := fun r c => if before r c i j then M'.data r c else M.data r c }

/-- The data-parallel round: every pixel's neighbour count is read from the mask `M` as it stood
at the start of the round. -/
def parallel_round {F : Type} (ar : Arith F) (md : motion_detection F)
    (order : Int) (abs_diff : Mat) (rows cols : Nat) (M : Mat) : Mat :=
  { rows := M.rows
    cols := M.cols
    data := fun i j =>
      if i < rows ∧ j < cols then adaptive_value ar md order abs_diff i j M else M.data i j }

/-- Offsets `(i, j)` pass the two `continue` guards of `get_neighbour_count` and one of the two
order tests: the cell `(row + i, col + j)` is counted. -/
def counted (img : Mat) (row col : Int) (num_neighbours : Int) (i j : Int) : Prop :=
  ¬ (i = 0 ∧ j = 0) ∧
  ¬ (row + i < 0 ∨ row + i ≥ img.rows ∨ col + j < 0 ∨ col + j ≥ img.cols) ∧
  ((num_neighbours = 4 ∧ |i + j| = 1) ∨ num_neighbours = 8)

instance (img : Mat) (row col : Int) (num_neighbours : Int) (i j : Int) :
    Decidable (counted img row col num_neighbours i j) := by unfold counted; infer_instance

/-- What offsets `(i, j)` add to `Qs`. -/
def cs (img : Mat) (row col : Int) (num_neighbours : Int) (i j : Int) : Int :=
  if counted img row col num_neighbours i j ∧ img.data (row + i).toNat (col + j).toNat = 0
  then 1 else 0

/-- What offsets `(i, j)` add to `Qm`. -/
def cm (img : Mat) (row col : Int) (num_neighbours : Int) (i j : Int) : Int :=
  if counted img row col num_neighbours i j ∧ img.data (row + i).toNat (col + j).toNat ≠ 0
  then 1 else 0

/-- The value written at pixel `(i, j)` by the loop body of `fixed_threshold`. -/
def fixed_value {F : Type} (ar : Arith F) (md : motion_detection F)
    (i j : Nat) (result : Mat) : Nat :=
  if ar.gt (ar.pow2u (result.get i j))
      (ar.mul (ar.mul ar.two (ar.pow2 md.sigma_s))
        (ar.log (ar.div (ar.mul md.theta (ar.imulf 5 md.sigma_s)) md.sigma_s)))
  then 255 else 0

/-- The grid after `n` rounds of the adaptive loop. -/
def rounds {F : Type} (ar : Arith F) (md : motion_detection F)
    (order : Int) (abs_diff : Mat) (rows cols : Nat) (n : Nat) (M : Mat) : Mat :=
  forLoop n (fun _ result => adaptive_round ar md order abs_diff rows cols result) M

/-- The `rows × cols` frame of constant value `v`. -/
def constFrame (rows cols v : Nat) : Mat := ⟨rows, cols, fun _ _ => v⟩

/-- The 3x3 frame that is zero except for 255 at `[1,1]`. -/
def centerFrame : Mat := ⟨3, 3, fun i j => if i = 1 ∧ j = 1 then 255 else 0⟩

/-- The 1x2 frame with cells `a`, `b`. -/
def pairFrame (a b : Nat) : Mat := ⟨1, 2, fun _ j => if j = 0 then a else b⟩

/-- The parameters of the demo driver `main1.cpp`: theta = 1, sigma_s = 1.22, T = 2 (the decimal
values; the driver stores them in `float`s). -/
def demoParams {K : Type} [LinearOrderedField K] : motion_detection K := ⟨1, 122 / 100, 2⟩

/-- Parameters theta = 1/5, sigma_s = 1, T = 1, for which ln(theta * sigma_m / sigma_s) = 0. -/
def unitParams {K : Type} [LinearOrderedField K] : motion_detection K := ⟨1 / 5, 1, 1⟩

/-- The four axis-aligned neighbour positions of `(row, col)`. -/
def cells4 (row col : Int) : List (Int × Int) :=
  [(row - 1, col), (row + 1, col), (row, col - 1), (row, col + 1)]

/-- The eight surrounding positions of `(row, col)`. -/
def cells8 (row col : Int) : List (Int × Int) :=
  [(row - 1, col - 1), (row - 1, col), (row - 1, col + 1), (row, col - 1), (row, col + 1),
   (row + 1, col - 1), (row + 1, col), (row + 1, col + 1)]

/-- Position `p` lies inside the grid. -/
def inGrid (img : Mat) (p : Int × Int) : Prop :=
  0 ≤ p.1 ∧ p.1 < img.rows ∧ 0 ≤ p.2 ∧ p.2 < img.cols

instance (img : Mat) (p : Int × Int) : Decidable (inGrid img p) := by
  unfold inGrid; infer_instance

/-- Number of in-grid positions of `l` whose cell is zero. -/
def countStatic (img : Mat) (l : List (Int × Int)) : Nat :=
  l.countP (fun p => decide (inGrid img p ∧ img.get p.1.toNat p.2.toNat = 0))

/-- Number of in-grid positions of `l` whose cell is not zero. -/
def countMoving (img : Mat) (l : List (Int × Int)) : Nat :=
  l.countP (fun p => decide (inGrid img p ∧ img.get p.1.toNat p.2.toNat ≠ 0))

/-! ### IEEE 754 arithmetic -/

/-- A binary floating-point format of IEEE 754: `prec` bits of significand (the hidden bit
included) and the exponents `emin .. emax` of the normal numbers. -/
structure Fmt where
  prec : Nat
  emin : Int
  emax : Int

/-- The format of `float`. -/
def binary32 : Fmt := ⟨24, -126, 127⟩

/-- The format of `double`. -/
def binary64 : Fmt := ⟨53, -1022, 1023⟩

/-- A floating-point datum: a finite number, an infinity or NaN.  A zero carries no sign (the sign
of a zero shows only in a quotient by it). -/
inductive Fl (K : Type) where
  | fin (x : K)
  | pinf
  | ninf
  | nan

/-- The nearest integer to `y`, the even one of the two when `y` lies halfway. -/
def rne {K : Type} [LinearOrderedField K] [FloorRing K] (y : K) : Int :=
  if y - ⌊y⌋ < 1 / 2 then ⌊y⌋
  else if 1 / 2 < y - ⌊y⌋ then ⌊y⌋ + 1
  else if ⌊y⌋ % 2 = 0 then ⌊y⌋ else ⌊y⌋ + 1

/-- The exponent of the binade of `x` in format `f`: `⌊log2 |x|⌋`, but `emin` for subnormal
numbers and zero. -/
def Fmt.expOf {K : Type} [LinearOrderedField K] [FloorRing K] (f : Fmt) (x : K) : Int :=
  if x = 0 then f.emin else max (Int.log 2 |x|) f.emin

/-- The unit in the last place of the binade of `x`. -/
def Fmt.ulp {K : Type} [LinearOrderedField K] [FloorRing K] (f : Fmt) (x : K) : K :=
  (2 : K) ^ (f.expOf x - ((f.prec : Int) - 1))

/-- The multiple of `ulp x` nearest to `x`, ties to even: `x` rounded with an unbounded
exponent range above. -/
def Fmt.rnd {K : Type} [LinearOrderedField K] [FloorRing K] (f : Fmt) (x : K) : K :=
  (rne (x / f.ulp x) : K) * f.ulp x

/-- The rounding `roundTiesToEven` of IEEE 754 into format `f`: the nearest number of the format,
an infinity when the rounded magnitude reaches `2 ^ (emax + 1)`. -/
def Fmt.round {K : Type} [LinearOrderedField K] [FloorRing K] (f : Fmt) (x : K) : Fl K :=
  if (2 : K) ^ (f.emax + 1) ≤ |f.rnd x| then (if 0 < x then .pinf else .ninf)
  else .fin (f.rnd x)

/-- The number `x` has a significand of at most `prec` bits at an exponent the format allows
(no bound from above on the exponent). -/
def Fmt.Rep {K : Type} [LinearOrderedField K] (f : Fmt) (x : K) : Prop :=
  ∃ m k : Int, x = (m : K) * (2 : K) ^ k ∧ |m| < 2 ^ f.prec ∧ f.emin - ((f.prec : Int) - 1) ≤ k


/-- The product of IEEE 754 in format `f`. -/
def Fl.mul {K : Type} [LinearOrderedField K] [FloorRing K] (f : Fmt) : Fl K → Fl K → Fl K
  | .nan, _ => .nan
  | _, .nan => .nan
  | .fin x, .fin y => f.round (x * y)
  | .fin x, .pinf => if 0 < x then .pinf else if x < 0 then .ninf else .nan
  | .fin x, .ninf => if 0 < x then .ninf else if x < 0 then .pinf else .nan
  | .pinf, .fin y => if 0 < y then .pinf else if y < 0 then .ninf else .nan
  | .ninf, .fin y => if 0 < y then .ninf else if y < 0 then .pinf else .nan
  | .pinf, .pinf => .pinf
  | .pinf, .ninf => .ninf
  | .ninf, .pinf => .ninf
  | .ninf, .ninf => .pinf

/-- The quotient of IEEE 754 in format `f`; a zero divisor counts as `+0`. -/
def Fl.div {K : Type} [LinearOrderedField K] [FloorRing K] (f : Fmt) : Fl K → Fl K → Fl K
  | .nan, _ => .nan
  | _, .nan => .nan
  | .fin x, .fin y =>
    if y = 0 then (if 0 < x then .pinf else if x < 0 then .ninf else .nan)
    else f.round (x / y)
  | .fin _, .pinf => .fin 0
  | .fin _, .ninf => .fin 0
  | .pinf, .fin y => if 0 ≤ y then .pinf else .ninf
  | .ninf, .fin y => if 0 ≤ y then .ninf else .pinf
  | .pinf, .pinf => .nan
  | .pinf, .ninf => .nan
  | .ninf, .pinf => .nan
  | .ninf, .ninf => .nan

/-- The sum of IEEE 754 in format `f`. -/
def Fl.add {K : Type} [LinearOrderedField K] [FloorRing K] (f : Fmt) : Fl K → Fl K → Fl K
  | .nan, _ => .nan
  | _, .nan => .nan
  | .fin x, .fin y => f.round (x + y)
  | .fin _, .pinf => .pinf
  | .fin _, .ninf => .ninf
  | .pinf, .fin _ => .pinf
  | .ninf, .fin _ => .ninf
  | .pinf, .pinf => .pinf
  | .ninf, .ninf => .ninf
  | .pinf, .ninf => .nan
  | .ninf, .pinf => .nan

/-- The function `log` of `<cmath>` on `double`, taken as correctly rounded: `ln` is the
logarithm of `K`. -/
def Fl.log {K : Type} [LinearOrderedField K] [FloorRing K] (ln : K → K) : Fl K → Fl K
  | .nan => .nan
  | .ninf => .nan
  | .pinf => .pinf
  | .fin x => if x < 0 then .nan else if x = 0 then .ninf else binary64.round (ln x)

/-- The call `pow(x, 2)` of `<cmath>` on `double`, taken as correctly rounded. -/
def Fl.pow2 {K : Type} [LinearOrderedField K] [FloorRing K] : Fl K → Fl K
  | .nan => .nan
  | .pinf => .pinf
  | .ninf => .pinf
  | .fin x => binary64.round (x ^ 2)

/-- The comparison `x > y` of IEEE 754: false as soon as one side is NaN. -/
def Fl.gt {K : Type} [LinearOrderedField K] : Fl K → Fl K → Bool
  | .fin x, .fin y => decide (y < x)
  | .pinf, .fin _ => true
  | .pinf, .ninf => true
  | .fin _, .ninf => true
  | _, _ => false

/-- The arithmetic of the source under IEEE 754 with round-to-nearest-even: `float` is binary32,
`double` is binary64, an `int` operand is converted to `float` first. -/
def ieeeArith {K : Type} [LinearOrderedField K] [FloorRing K] (ln : K → K) : Arith (Fl K) where
  imulf n x := Fl.mul binary32 (binary32.round (n : K)) x
  idivf n x := Fl.div binary32 (binary32.round (n : K)) x
  two := .fin 2
  mul := Fl.mul binary64
  div := Fl.div binary64
  add := Fl.add binary64
  pow2 := Fl.pow2
  pow2u c := binary64.round ((c : K) ^ 2)
  log := Fl.log ln
  gt := Fl.gt
  gt_irrefl x := by cases x <;> simp [Fl.gt]

/-- The datum is `+inf` or a finite number at least `b`. -/
def Fl.AtLeast {K : Type} [LinearOrderedField K] (b : K) (v : Fl K) : Prop :=
  v = .pinf ∨ ∃ y, v = .fin y ∧ b ≤ y

/-- The datum is `-inf` or a finite number at most `b`. -/
def Fl.AtMost {K : Type} [LinearOrderedField K] (b : K) (v : Fl K) : Prop :=
  v = .ninf ∨ ∃ y, v = .fin y ∧ y ≤ b

/-- The order of thresholds as the comparison `psi > thresh` sees them: `v` is at most `w`, NaN
counting as `+inf` (no `psi` is above either). -/
def Fl.leT {K : Type} [LinearOrderedField K] : Fl K → Fl K → Prop
  | .ninf, _ => True
  | _, .pinf => True
  | _, .nan => True
  | .fin x, .fin y => x ≤ y
  | _, _ => False

/-- The value of `threshold` in `fixed_threshold`. -/
def fixed_thresh {F : Type} (ar : Arith F) (md : motion_detection F) : F :=
  ar.mul (ar.mul ar.two (ar.pow2 md.sigma_s))
    (ar.log (ar.div (ar.mul md.theta (ar.imulf 5 md.sigma_s)) md.sigma_s))

/-- The value of `thresh` in `variable_threshold1` and `variable_threshold2` when
`n1.Qs - n1.Qm` is `q`. -/
def adaptive_thresh {F : Type} (ar : Arith F) (md : motion_detection F) (q : Int) : F :=
  ar.mul (ar.mul ar.two (ar.pow2 md.sigma_s))
    (ar.add (ar.log (ar.div (ar.mul md.theta (ar.imulf 5 md.sigma_s)) md.sigma_s))
      (ar.idivf q md.T))

/-- The parameters theta = 0.2f, sigma_s = 1.1f (the `float`s nearest to 0.2 and 1.1) with a
given `T`. -/
def roundingParams {K : Type} [LinearOrderedField K] (T : Fl K) : motion_detection (Fl K) :=
  ⟨.fin (13421773 / 67108864), .fin (9227469 / 8388608), T⟩

/-- The parameters theta = 0.125f, sigma_s = 2^126 (both `float`s) with a given `T`. -/
def overflowParams {K : Type} [LinearOrderedField K] (T : Fl K) : motion_detection (Fl K) :=
  ⟨.fin (1 / 8), .fin ((2 : K) ^ (126 : Int)), T⟩

/-- The parameters of `main1.cpp` as `float`s: theta = 1, sigma_s = 1.22f (the `float` nearest to
1.22), T = 2. -/
def demoFloatParams {K : Type} [LinearOrderedField K] : motion_detection (Fl K) :=
  ⟨.fin 1, .fin (10234102 / 8388608), .fin 2⟩

/-! ## The in-place row-major sweep -/

theorem rowPre_succ (w : Nat → Nat → Mat → Nat) (i l : Nat) (r : Mat) :
    rowPre w i (l + 1) r = (rowPre w i l r).set i l (w i l (rowPre w i l r)) := rfl

theorem sweepPre_succ (w : Nat → Nat → Mat → Nat) (cols k : Nat) (M : Mat) :
    sweepPre w cols (k + 1) M = rowPre w k cols (sweepPre w cols k M) := rfl

theorem rowPre_rows (w : Nat → Nat → Mat → Nat) (i l : Nat) (r : Mat) :
    (rowPre w i l r).rows = r.rows := by
  induction l with
  | zero => rfl
  | succ l ih => rw [rowPre_succ]; exact ih

theorem rowPre_cols (w : Nat → Nat → Mat → Nat) (i l : Nat) (r : Mat) :
    (rowPre w i l r).cols = r.cols := by
  induction l with
  | zero => rfl
  | succ l ih => rw [rowPre_succ]; exact ih

theorem sweepPre_rows (w : Nat → Nat → Mat → Nat) (cols k : Nat) (M : Mat) :
    (sweepPre w cols k M).rows = M.rows := by
  induction k with
  | zero => rfl
  | succ k ih => rw [sweepPre_succ, rowPre_rows]; exact ih

theorem sweepPre_cols (w : Nat → Nat → Mat → Nat) (cols k : Nat) (M : Mat) :
    (sweepPre w cols k M).cols = M.cols := by
  induction k with
  | zero => rfl
  | succ k ih => rw [sweepPre_succ, rowPre_cols]; exact ih

theorem rowPre_data (w : Nat → Nat → Mat → Nat) (i l : Nat) (r : Mat) (a b : Nat) :
    (rowPre w i l r).data a b =
      if a = i ∧ b < l then w i b (rowPre w i b r) else r.data a b := by
  induction l with
  | zero => simp [rowPre, forLoop]
  | succ l ih =>
    rw [rowPre_succ]
    simp only [Mat.set]
    by_cases h1 : a = i ∧ b = l
    · obtain ⟨rfl, rfl⟩ := h1
      simp
    · rw [if_neg h1, ih]
      by_cases h2 : a = i ∧ b < l
      · rw [if_pos h2, if_pos ⟨h2.1, by omega⟩]
      · rw [if_neg h2, if_neg]
        rintro ⟨h3, h4⟩
        rcases Nat.lt_succ_iff_lt_or_eq.mp h4 with h5 | h5
        · exact h2 ⟨h3, h5⟩
        · exact h1 ⟨h3, h5⟩

theorem sweepPre_data (w : Nat → Nat → Mat → Nat) (cols k : Nat) (M : Mat) (a b : Nat) :
    (sweepPre w cols k M).data a b =
      if a < k ∧ b < cols then w a b (pre w cols a b M) else M.data a b := by
  induction k with
  | zero => simp [sweepPre, forLoop]
  | succ k ih =>
    rw [sweepPre_succ, rowPre_data]
    by_cases h1 : a = k ∧ b < cols
    · obtain ⟨rfl, h⟩ := h1
      simp [h, pre]
    · rw [if_neg h1, ih]
      by_cases h2 : a < k ∧ b < cols
      · rw [if_pos h2, if_pos ⟨by omega, h2.2⟩]
      · rw [if_neg h2, if_neg]
        rintro ⟨h3, h4⟩
        rcases Nat.lt_succ_iff_lt_or_eq.mp h3 with h5 | h5
        · exact h2 ⟨h5, h4⟩
        · exact h1 ⟨h5, h4⟩

/-- The grid met at pixel `(i, j)` is the hybrid of the final grid and the initial one. -/
theorem pre_eq_hybrid (w : Nat → Nat → Mat → Nat) (rows cols : Nat) (M : Mat) (i j : Nat)
    (hi : i < rows) (hj : j ≤ cols) :
    pre w cols i j M = hybrid (sweepPre w cols rows M) M i j := by
  have hr : (pre w cols i j M).rows = M.rows := by
    unfold pre; rw [rowPre_rows, sweepPre_rows]
  have hc : (pre w cols i j M).cols = M.cols := by
    unfold pre; rw [rowPre_cols, sweepPre_cols]
  have hd : (pre w cols i j M).data = (hybrid (sweepPre w cols rows M) M i j).data := by
    funext a b
    show (rowPre w i j (sweepPre w cols i M)).data a b = _
    rw [rowPre_data]
    simp only [hybrid, before]
    rw [sweepPre_data, sweepPre_data]
    by_cases h1 : a = i ∧ b < j
    · obtain ⟨rfl, h⟩ := h1
      have hb : b < cols := by omega
      simp [h, hb, hi, pre]
    · rw [if_neg h1]
      by_cases h2 : a < i
      · have h3 : a < rows := by omega
        simp [h2, h3]
      · have h4 : ¬ (a < i ∨ a = i ∧ b < j) := by
          rintro (h | h)
          · exact h2 h
          · exact h1 h
        rw [if_neg h4, if_neg (fun h => h2 h.1)]
  cases hp : pre w cols i j M with
  | mk r c d =>
    rw [hp] at hr hc hd
    simp only at hr hc hd
    subst hr hc hd
    rfl

/-- Closed form of a full sweep: every in-grid cell holds the value computed from the hybrid grid,
every other cell is untouched. -/
theorem sweep_data (w : Nat → Nat → Mat → Nat) (rows cols : Nat) (M : Mat) (a b : Nat) :
    (sweepPre w cols rows M).data a b =
      if a < rows ∧ b < cols then w a b (hybrid (sweepPre w cols rows M) M a b)
      else M.data a b := by
  rw [sweepPre_data]
  by_cases h : a < rows ∧ b < cols
  · rw [if_pos h, if_pos h, pre_eq_hybrid w rows cols M a b h.1 (Nat.le_of_lt h.2)]
  · rw [if_neg h, if_neg h]

theorem pixel_update_eq {F : Type} (ar : Arith F) (md : motion_detection F)
    (order : Int) (abs_diff : Mat) (i j : Nat) (result : Mat) :
    pixel_update ar md order abs_diff i j result =
      result.set i j (adaptive_value ar md order abs_diff i j result) := by
  unfold pixel_update adaptive_value
  simp only
  split_ifs <;> rfl

theorem adaptive_round_eq_sweep {F : Type} (ar : Arith F)
    (md : motion_detection F) (order : Int) (abs_diff : Mat) (rows cols : Nat) (M : Mat) :
    adaptive_round ar md order abs_diff rows cols M =
      sweepPre (adaptive_value ar md order abs_diff) cols rows M := by
  unfold adaptive_round sweepPre rowPre
  simp only [pixel_update_eq]

/-! ## Neighbour counting -/

theorem visit_eq (img : Mat) (row col : Int) (N : Int) (i j : Int) (n1 : neighbours) :
    visit img row col N i j n1 =
      ⟨n1.Qs + cs img row col N i j, n1.Qm + cm img row col N i j⟩ := by
  obtain ⟨qs, qm⟩ := n1
  unfold visit cs cm counted Mat.get
  by_cases h0 : i = 0 ∧ j = 0
  · simp [h0]
  · rw [if_neg h0]
    by_cases hb : row + i < 0 ∨ row + i ≥ img.rows ∨ col + j < 0 ∨ col + j ≥ img.cols
    · rw [if_pos hb]
      simp [hb]
    · rw [if_neg hb]
      by_cases h8 : N = 8
      · have h4 : ¬ (N = 4) := by omega
        by_cases hz : img.data (row + i).toNat (col + j).toNat = 0
        · simp [h0, hb, h8, hz]
        · simp [h0, hb, h8, hz]
      · by_cases h4 : N = 4 ∧ |i + j| = 1
        · by_cases hz : img.data (row + i).toNat (col + j).toNat = 0
          · simp [h0, hb, h8, h4, hz]
          · simp [h0, hb, h8, h4, hz]
        · simp [h0, hb, h8, h4]

/-- The nine passes of `get_neighbour_count` add up the contributions of the nine offsets. -/
theorem get_neighbour_count_eq (img : Mat) (row col : Int) (N : Int) :
    get_neighbour_count img row col N =
      ⟨cs img row col N (-1) (-1) + cs img row col N (-1) 0 + cs img row col N (-1) 1 +
        cs img row col N 0 (-1) + cs img row col N 0 0 + cs img row col N 0 1 +
        cs img row col N 1 (-1) + cs img row col N 1 0 + cs img row col N 1 1,
       cm img row col N (-1) (-1) + cm img row col N (-1) 0 + cm img row col N (-1) 1 +
        cm img row col N 0 (-1) + cm img row col N 0 0 + cm img row col N 0 1 +
        cm img row col N 1 (-1) + cm img row col N 1 0 + cm img row col N 1 1⟩ := by
  unfold get_neighbour_count
  simp only [List.foldl, visit_eq, zero_add]

theorem cs_nonneg (img : Mat) (row col N i j : Int) : 0 ≤ cs img row col N i j := by
  unfold cs; split_ifs <;> decide

theorem cm_nonneg (img : Mat) (row col N i j : Int) : 0 ≤ cm img row col N i j := by
  unfold cm; split_ifs <;> decide

theorem cs_add_cm (img : Mat) (row col N i j : Int) :
    cs img row col N i j + cm img row col N i j = if counted img row col N i j then 1 else 0 := by
  unfold cs cm
  by_cases hc : counted img row col N i j
  · by_cases hz : img.data (row + i).toNat (col + j).toNat = 0 <;> simp [hc, hz]
  · simp [hc]

theorem cs_add_cm_le (img : Mat) (row col N i j : Int) :
    cs img row col N i j + cm img row col N i j ≤ 1 := by
  rw [cs_add_cm]; split_ifs <;> decide

theorem cs_add_cm_of_not (img : Mat) (row col N i j : Int) (h : ¬ counted img row col N i j) :
    cs img row col N i j + cm img row col N i j = 0 := by
  rw [cs_add_cm, if_neg h]

theorem not_counted_center (img : Mat) (row col N : Int) : ¬ counted img row col N 0 0 := by
  unfold counted; simp

theorem not_counted_diag (img : Mat) (row col i j : Int) (h : |i + j| ≠ 1) :
    ¬ counted img row col 4 i j := by
  unfold counted; simp [h]

theorem not_counted_oob (img : Mat) (row col N i j : Int)
    (h : row + i < 0 ∨ row + i ≥ img.rows ∨ col + j < 0 ∨ col + j ≥ img.cols) :
    ¬ counted img row col N i j := by
  unfold counted; simp [h]

/-- Bounds on the two counters for the two orders the code uses. -/
theorem get_neighbour_count_bounds (img : Mat) (row col : Int) :
    (0 ≤ (get_neighbour_count img row col 4).Qs ∧ 0 ≤ (get_neighbour_count img row col 4).Qm ∧
      (get_neighbour_count img row col 4).Qs + (get_neighbour_count img row col 4).Qm ≤ 4) ∧
    (0 ≤ (get_neighbour_count img row col 8).Qs ∧ 0 ≤ (get_neighbour_count img row col 8).Qm ∧
      (get_neighbour_count img row col 8).Qs + (get_neighbour_count img row col 8).Qm ≤ 8) := by
  have s := cs_nonneg img row col
  have m := cm_nonneg img row col
  have t := cs_add_cm_le img row col
  have c := fun N => cs_add_cm_of_not img row col N 0 0 (not_counted_center img row col N)
  have d1 := cs_add_cm_of_not img row col 4 (-1) (-1) (not_counted_diag img row col _ _ (by decide))
  have d2 := cs_add_cm_of_not img row col 4 (-1) 1 (not_counted_diag img row col _ _ (by decide))
  have d3 := cs_add_cm_of_not img row col 4 1 (-1) (not_counted_diag img row col _ _ (by decide))
  have d4 := cs_add_cm_of_not img row col 4 1 1 (not_counted_diag img row col _ _ (by decide))
  rw [get_neighbour_count_eq, get_neighbour_count_eq]
  simp only
  have s4 := s 4; have m4 := m 4; have t4 := t 4; have c4 := c 4
  have s8 := s 8; have m8 := m 8; have t8 := t 8; have c8 := c 8
  refine ⟨⟨?_, ?_, ?_⟩, ⟨?_, ?_, ?_⟩⟩
  · linarith [s4 (-1) (-1), s4 (-1) 0, s4 (-1) 1, s4 0 (-1), s4 0 0, s4 0 1, s4 1 (-1), s4 1 0,
      s4 1 1]
  · linarith [m4 (-1) (-1), m4 (-1) 0, m4 (-1) 1, m4 0 (-1), m4 0 0, m4 0 1, m4 1 (-1), m4 1 0,
      m4 1 1]
  · linarith [t4 (-1) 0, t4 0 (-1), t4 0 1, t4 1 0]
  · linarith [s8 (-1) (-1), s8 (-1) 0, s8 (-1) 1, s8 0 (-1), s8 0 0, s8 0 1, s8 1 (-1), s8 1 0,
      s8 1 1]
  · linarith [m8 (-1) (-1), m8 (-1) 0, m8 (-1) 1, m8 0 (-1), m8 0 0, m8 0 1, m8 1 (-1), m8 1 0,
      m8 1 1]
  · linarith [t8 (-1) (-1), t8 (-1) 0, t8 (-1) 1, t8 0 (-1), t8 0 1, t8 1 (-1), t8 1 0, t8 1 1]

/-! ## Closed forms of the public operations on frames of equal size -/

theorem sizeNe_eq_true_iff (A B : Mat) :
    sizeNe A B = true ↔ (A.rows ≠ B.rows ∨ A.cols ≠ B.cols) := by
  unfold sizeNe; simp

theorem sizeNe_eq_false (A B : Mat) (hr : A.rows = B.rows) (hc : A.cols = B.cols) :
    sizeNe A B = false := by
  unfold sizeNe; simp [hr, hc]

theorem abs_difference_ok (A B : Mat) (hr : A.rows = B.rows) (hc : A.cols = B.cols) :
    abs_difference A B = .ok (absdiff B A) := by
  unfold abs_difference; simp [sizeNe_eq_false A B hr hc]

theorem fixed_threshold_ok {F : Type} (ar : Arith F)
    (md : motion_detection F) (A B : Mat) (hr : A.rows = B.rows) (hc : A.cols = B.cols) :
    fixed_threshold ar md A B =
      .ok (sweepPre (fixed_value ar md) A.cols A.rows (absdiff B A)) := by
  have hbody : ∀ (i j : Nat) (result : Mat),
      (if ar.gt (ar.pow2u (result.get i j))
          (ar.mul (ar.mul ar.two (ar.pow2 md.sigma_s))
            (ar.log (ar.div (ar.mul md.theta (ar.imulf 5 md.sigma_s)) md.sigma_s))) = true
        then result.set i j 255 else result.set i j 0) =
        result.set i j (fixed_value ar md i j result) := by
    intro i j result
    unfold fixed_value
    split_ifs <;> rfl
  unfold fixed_threshold
  simp only [sizeNe_eq_false A B hr hc, abs_difference_ok A B hr hc, hbody]
  rfl

theorem variable_threshold_ok {F : Type} (ar : Arith F)
    (md : motion_detection F) (order : Int) (A B : Mat) (iterations : Int)
    (hr : A.rows = B.rows) (hc : A.cols = B.cols) :
    variable_threshold ar md order A B iterations =
      .ok (rounds ar md order (absdiff B A) A.rows A.cols iterations.toNat (absdiff B A)) := by
  unfold variable_threshold
  simp only [sizeNe_eq_false A B hr hc, abs_difference_ok A B hr hc]
  rfl

theorem rounds_succ {F : Type} (ar : Arith F) (md : motion_detection F)
    (order : Int) (D : Mat) (rows cols n : Nat) (M : Mat) :
    rounds ar md order D rows cols (n + 1) M =
      adaptive_round ar md order D rows cols (rounds ar md order D rows cols n M) := rfl

theorem adaptive_round_rows {F : Type} (ar : Arith F)
    (md : motion_detection F) (order : Int) (D : Mat) (rows cols : Nat) (M : Mat) :
    (adaptive_round ar md order D rows cols M).rows = M.rows := by
  rw [adaptive_round_eq_sweep, sweepPre_rows]

theorem adaptive_round_cols {F : Type} (ar : Arith F)
    (md : motion_detection F) (order : Int) (D : Mat) (rows cols : Nat) (M : Mat) :
    (adaptive_round ar md order D rows cols M).cols = M.cols := by
  rw [adaptive_round_eq_sweep, sweepPre_cols]

theorem rounds_rows {F : Type} (ar : Arith F) (md : motion_detection F)
    (order : Int) (D : Mat) (rows cols n : Nat) (M : Mat) :
    (rounds ar md order D rows cols n M).rows = M.rows := by
  induction n with
  | zero => rfl
  | succ n ih => rw [rounds_succ, adaptive_round_rows]; exact ih

theorem rounds_cols {F : Type} (ar : Arith F) (md : motion_detection F)
    (order : Int) (D : Mat) (rows cols n : Nat) (M : Mat) :
    (rounds ar md order D rows cols n M).cols = M.cols := by
  induction n with
  | zero => rfl
  | succ n ih => rw [rounds_succ, adaptive_round_cols]; exact ih

/-- No round writes outside the `rows × cols` rectangle the loops run over. -/
theorem rounds_data_outside {F : Type} (ar : Arith F)
    (md : motion_detection F) (order : Int) (D : Mat) (rows cols n : Nat) (M : Mat) (a b : Nat)
    (h : ¬ (a < rows ∧ b < cols)) :
    (rounds ar md order D rows cols n M).data a b = M.data a b := by
  induction n with
  | zero => rfl
  | succ n ih => rw [rounds_succ, adaptive_round_eq_sweep, sweepPre_data, if_neg h]; exact ih

/-- After at least one round every in-grid cell holds the value `adaptive_value` computes on some
grid of the same size (the hybrid grid of the last round). -/
theorem rounds_data_inside {F : Type} (ar : Arith F)
    (md : motion_detection F) (order : Int) (D : Mat) (rows cols n : Nat) (M : Mat) (a b : Nat)
    (ha : a < rows) (hb : b < cols) :
    ∃ G : Mat, (rounds ar md order D rows cols (n + 1) M).data a b =
      adaptive_value ar md order D a b G := by
  refine ⟨hybrid (rounds ar md order D rows cols (n + 1) M)
    (rounds ar md order D rows cols n M) a b, ?_⟩
  conv_lhs => rw [rounds_succ, adaptive_round_eq_sweep, sweep_data, if_pos ⟨ha, hb⟩]
  rw [rounds_succ, adaptive_round_eq_sweep]

theorem absdiff_le (A B : Mat) (i j : Nat) : (absdiff B A).data i j ≤ 255 := by
  unfold absdiff
  simp only
  split_ifs
  · exact min_le_right _ _
  · exact Nat.zero_le _

theorem absdiff_outside (A B : Mat) (i j : Nat) (h : ¬ (i < B.rows ∧ j < B.cols)) :
    (absdiff B A).data i j = 0 := by
  unfold absdiff
  simp only
  rw [if_neg h]

/-- Closed form of the grid `fixed_threshold` returns. -/
theorem fixed_sweep_data {F : Type} (ar : Arith F)
    (md : motion_detection F) (rows cols : Nat) (D : Mat) (a b : Nat) :
    (sweepPre (fixed_value ar md) cols rows D).data a b =
      if a < rows ∧ b < cols then fixed_value ar md a b D else D.data a b := by
  rw [sweep_data]
  by_cases h : a < rows ∧ b < cols
  · rw [if_pos h, if_pos h]
    unfold fixed_value Mat.get hybrid before
    simp
  · rw [if_neg h, if_neg h]

theorem Mat.eq_of (M N : Mat) (hr : M.rows = N.rows) (hc : M.cols = N.cols)
    (hd : ∀ i j, M.data i j = N.data i j) : M = N := by
  obtain ⟨r, c, d⟩ := M
  obtain ⟨r2, c2, d2⟩ := N
  simp only at hr hc hd
  have : d = d2 := by funext i j; exact hd i j
  subst hr hc this
  rfl

theorem absdiff_comm (A B : Mat) (hr : A.rows = B.rows) (hc : A.cols = B.cols) :
    absdiff A B = absdiff B A := by
  apply Mat.eq_of
  · exact hr
  · exact hc
  · intro i j
    unfold absdiff
    simp only [hr, hc]
    split_ifs
    · congr 1
      omega
    · rfl

/-- The argument of `log` in the source, `theta * sigma_m / sigma_s` with `sigma_m = 5 * sigma_s`,
is `5 * theta` when `sigma_s` is not zero. -/
theorem log_arg_eq {K : Type} [LinearOrderedField K] (θ σ : K) (hσ : σ ≠ 0) :
    θ * (5 * σ) / σ = 5 * θ := by
  field_simp
  ring

/-! ## Dependence of the neighbour count on the grid -/

theorem cs_cm_congr (G1 G2 : Mat) (row col N i j : Int) (hr : G1.rows = G2.rows)
    (hc : G1.cols = G2.cols)
    (h : counted G1 row col N i j →
      (G1.data (row + i).toNat (col + j).toNat = 0 ↔ G2.data (row + i).toNat (col + j).toNat = 0)) :
    cs G1 row col N i j = cs G2 row col N i j ∧ cm G1 row col N i j = cm G2 row col N i j := by
  have hcnt : counted G1 row col N i j ↔ counted G2 row col N i j := by
    unfold counted
    rw [hr, hc]
  unfold cs cm
  by_cases hc1 : counted G1 row col N i j
  · have hc2 := hcnt.mp hc1
    have hz := h hc1
    by_cases hz1 : G1.data (row + i).toNat (col + j).toNat = 0
    · have hz2 := hz.mp hz1
      simp [hc1, hc2, hz1, hz2]
    · have hz2 : ¬ G2.data (row + i).toNat (col + j).toNat = 0 := fun h2 => hz1 (hz.mpr h2)
      simp [hc1, hc2, hz1, hz2]
  · have hc2 : ¬ counted G2 row col N i j := fun h2 => hc1 (hcnt.mpr h2)
    simp [hc1, hc2]

/-- The neighbour count at a pixel only depends on the size of the grid and on which of the
in-grid surrounding cells are zero. -/
theorem get_neighbour_count_congr (G1 G2 : Mat) (row col N : Int) (hr : G1.rows = G2.rows)
    (hc : G1.cols = G2.cols)
    (h : ∀ di dj : Int, -1 ≤ di → di ≤ 1 → -1 ≤ dj → dj ≤ 1 → ¬ (di = 0 ∧ dj = 0) →
      0 ≤ row + di → row + di < G1.rows → 0 ≤ col + dj → col + dj < G1.cols →
      (G1.data (row + di).toNat (col + dj).toNat = 0 ↔
        G2.data (row + di).toNat (col + dj).toNat = 0)) :
    get_neighbour_count G1 row col N = get_neighbour_count G2 row col N := by
  have key : ∀ di dj : Int, -1 ≤ di → di ≤ 1 → -1 ≤ dj → dj ≤ 1 →
      cs G1 row col N di dj = cs G2 row col N di dj ∧
      cm G1 row col N di dj = cm G2 row col N di dj := by
    intro di dj h1 h2 h3 h4
    apply cs_cm_congr G1 G2 row col N di dj hr hc
    intro hcnt
    unfold counted at hcnt
    obtain ⟨h0, hb, _⟩ := hcnt
    simp only [not_or, not_lt, ge_iff_le, not_le] at hb
    exact h di dj h1 h2 h3 h4 h0 hb.1 hb.2.1 hb.2.2.1 hb.2.2.2
  rw [get_neighbour_count_eq, get_neighbour_count_eq]
  have k1 := key (-1) (-1) (by decide) (by decide) (by decide) (by decide)
  have k2 := key (-1) 0 (by decide) (by decide) (by decide) (by decide)
  have k3 := key (-1) 1 (by decide) (by decide) (by decide) (by decide)
  have k4 := key 0 (-1) (by decide) (by decide) (by decide) (by decide)
  have k5 := key 0 0 (by decide) (by decide) (by decide) (by decide)
  have k6 := key 0 1 (by decide) (by decide) (by decide) (by decide)
  have k7 := key 1 (-1) (by decide) (by decide) (by decide) (by decide)
  have k8 := key 1 0 (by decide) (by decide) (by decide) (by decide)
  have k9 := key 1 1 (by decide) (by decide) (by decide) (by decide)
  rw [k1.1, k1.2, k2.1, k2.2, k3.1, k3.2, k4.1, k4.2, k5.1, k5.2, k6.1, k6.2, k7.1, k7.2,
    k8.1, k8.2, k9.1, k9.2]

/-- The value written at a pixel depends on the grid only through the neighbour count. -/
theorem adaptive_value_congr {F : Type} (ar : Arith F)
    (md : motion_detection F) (N : Int) (D : Mat) (i j : Nat) (G1 G2 : Mat)
    (h : get_neighbour_count G1 i j N = get_neighbour_count G2 i j N) :
    adaptive_value ar md N D i j G1 = adaptive_value ar md N D i j G2 := by
  unfold adaptive_value
  rw [h]

/-! ## Evaluation of one round on the 1x2 grid `[0, 1]` -/

theorem unit_value_first :
    adaptive_value (exactArith Real.log) unitParams 4 (pairFrame 0 1) 0 0 (pairFrame 0 1) =
      255 := by
  have h : get_neighbour_count (pairFrame 0 1) ((0 : Nat) : Int) ((0 : Nat) : Int) 4 = ⟨0, 1⟩ := by
    decide
  unfold adaptive_value
  simp only [h]
  norm_num [exactArith, unitParams, pairFrame, Mat.get]

theorem unit_value_second :
    adaptive_value (exactArith Real.log) unitParams 4 (pairFrame 0 1) 0 1
      ((pairFrame 0 1).set 0 0 255) = 255 := by
  have h : get_neighbour_count ((pairFrame 0 1).set 0 0 255) ((0 : Nat) : Int) ((1 : Nat) : Int) 4
      = ⟨0, 1⟩ := by decide
  unfold adaptive_value
  simp only [h]
  norm_num [exactArith, unitParams, pairFrame, Mat.get]

theorem unit_inplace_cell :
    (adaptive_round (exactArith Real.log) unitParams 4 (pairFrame 0 1) 1 2
      (pairFrame 0 1)).data 0 1 = 255 := by
  simp only [adaptive_round, forLoop, pixel_update_eq, unit_value_first, unit_value_second]
  simp [Mat.set]

theorem unit_parallel_cell :
    (parallel_round (exactArith Real.log) unitParams 4 (pairFrame 0 1) 1 2
      (pairFrame 0 1)).data 0 1 = 0 := by
  have h : get_neighbour_count (pairFrame 0 1) ((0 : Nat) : Int) ((1 : Nat) : Int) 4 = ⟨1, 0⟩ := by
    decide
  simp only [parallel_round, adaptive_value, h]
  norm_num [exactArith, unitParams, pairFrame, Mat.get]

theorem ones_value_first :
    adaptive_value (exactArith Real.log) unitParams 4 (pairFrame 1 1) 0 0 (pairFrame 1 1) =
      255 := by
  have h : get_neighbour_count (pairFrame 1 1) ((0 : Nat) : Int) ((0 : Nat) : Int) 4 = ⟨0, 1⟩ := by
    decide
  unfold adaptive_value
  simp only [h]
  norm_num [exactArith, unitParams, pairFrame, Mat.get]

theorem ones_inplace_first :
    (adaptive_round (exactArith Real.log) unitParams 4 (pairFrame 1 1) 1 2
      (pairFrame 1 1)).data 0 0 = 255 := by
  simp only [adaptive_round, forLoop, pixel_update_eq, ones_value_first]
  simp [Mat.set]

/-! ## Claims C11, C14, C16 -/

/-- C11 as stated fails: with theta = 1/5, sigma_s = 1, T = 1, order 4, and the 1x2 grid `[0, 1]`
as both difference map and working mask, the in-place round writes 255 at `[0,1]` (it sees the
255 just written at `[0,0]`), the data-parallel round writes 0 there (it sees the 0 of the start
of the round); so the two rounds yield different masks. -/
theorem inplace_round_ne_parallel_round :
    (adaptive_round (exactArith Real.log) unitParams 4 (pairFrame 0 1) 1 2
      (pairFrame 0 1)).data 0 1 = 255 ∧
    (parallel_round (exactArith Real.log) unitParams 4 (pairFrame 0 1) 1 2
      (pairFrame 0 1)).data 0 1 = 0 ∧
    adaptive_round (exactArith Real.log) unitParams 4 (pairFrame 0 1) 1 2 (pairFrame 0 1) ≠
      parallel_round (exactArith Real.log) unitParams 4 (pairFrame 0 1) 1 2 (pairFrame 0 1) := by
  refine ⟨unit_inplace_cell, unit_parallel_cell, ?_⟩
  intro h
  have h1 := unit_inplace_cell
  rw [h, unit_parallel_cell] at h1
  exact absurd h1 (by decide)

/-- C11 amended: one in-place row-major round agrees with the data-parallel round at every
pixel `(i, j)` all of whose already-visited surrounding cells (those before `(i, j)` in row-major
order) are zero after the round exactly when they were zero at its start. -/
theorem inplace_round_eq_parallel_round_at {F : Type} (ar : Arith F) (md : motion_detection F)
    (N : Int) (D M : Mat) (rows cols i j : Nat) (hi : i < rows) (hj : j < cols)
    (hsame : ∀ r c, before r c i j → i ≤ r + 1 → c ≤ j + 1 → j ≤ c + 1 →
      ((adaptive_round ar md N D rows cols M).data r c = 0 ↔ M.data r c = 0)) :
    (adaptive_round ar md N D rows cols M).data i j =
      (parallel_round ar md N D rows cols M).data i j := by
  have hp : (parallel_round ar md N D rows cols M).data i j =
      adaptive_value ar md N D i j M := by
    simp only [parallel_round]
    rw [if_pos ⟨hi, hj⟩]
  rw [hp]
  rw [adaptive_round_eq_sweep] at hsame ⊢
  rw [sweep_data, if_pos ⟨hi, hj⟩]
  have hg : get_neighbour_count
      (hybrid (sweepPre (adaptive_value ar md N D) cols rows M) M i j) i j N =
      get_neighbour_count M i j N := by
    refine get_neighbour_count_congr
      (hybrid (sweepPre (adaptive_value ar md N D) cols rows M) M i j) M
      (i : Int) (j : Int) N rfl rfl ?_
    intro di dj h1 h2 h3 h4 _ h5 _ h6 _
    show (if before ((i : Int) + di).toNat ((j : Int) + dj).toNat i j then
        (sweepPre (adaptive_value ar md N D) cols rows M).data
          ((i : Int) + di).toNat ((j : Int) + dj).toNat
      else M.data ((i : Int) + di).toNat ((j : Int) + dj).toNat) = 0 ↔ _
    by_cases hb : before ((i : Int) + di).toNat ((j : Int) + dj).toNat i j
    · rw [if_pos hb]
      exact hsame _ _ hb (by omega) (by omega) (by omega)
    · rw [if_neg hb]
  exact adaptive_value_congr ar md N D i j _ M hg

/-- C14: with an iteration count <= 0 the two adaptive classifiers run no round and return, for
frames of equal dimensions, exactly the grid `abs_difference` returns (raw difference
intensities). -/
theorem no_round_returns_abs_difference {F : Type} (ar : Arith F) (md : motion_detection F)
    (A B : Mat) (hr : A.rows = B.rows) (hc : A.cols = B.cols) (iterations : Int)
    (hit : iterations ≤ 0) :
    variable_threshold1 ar md A B iterations = abs_difference A B ∧
    variable_threshold2 ar md A B iterations = abs_difference A B ∧
    abs_difference A B = .ok (absdiff B A) := by
  have h0 : iterations.toNat = 0 := Int.toNat_eq_zero.mpr hit
  unfold variable_threshold1 variable_threshold2
  rw [variable_threshold_ok ar md 4 A B iterations hr hc,
    variable_threshold_ok ar md 8 A B iterations hr hc, abs_difference_ok A B hr hc, h0]
  exact ⟨rfl, rfl, rfl⟩

/-- C16: for frames of equal dimensions, every parameter triple and every iteration count, each
of `abs_difference`, `fixed_threshold`, `variable_threshold1` and `variable_threshold2` returns
the same grid on (A, B) as on (B, A). -/
theorem frame_order_irrelevant {F : Type} (ar : Arith F) (md : motion_detection F) (A B : Mat)
    (hr : A.rows = B.rows) (hc : A.cols = B.cols) (iterations : Int) :
    abs_difference A B = abs_difference B A ∧
    fixed_threshold ar md A B = fixed_threshold ar md B A ∧
    variable_threshold1 ar md A B iterations =
      variable_threshold1 ar md B A iterations ∧
    variable_threshold2 ar md A B iterations =
      variable_threshold2 ar md B A iterations := by
  unfold variable_threshold1 variable_threshold2
  rw [abs_difference_ok A B hr hc, abs_difference_ok B A hr.symm hc.symm,
    fixed_threshold_ok ar md A B hr hc, fixed_threshold_ok ar md B A hr.symm hc.symm,
    variable_threshold_ok ar md 4 A B iterations hr hc,
    variable_threshold_ok ar md 4 B A iterations hr.symm hc.symm,
    variable_threshold_ok ar md 8 A B iterations hr hc,
    variable_threshold_ok ar md 8 B A iterations hr.symm hc.symm,
    absdiff_comm A B hr hc, hr, hc]
  exact ⟨rfl, rfl, rfl, rfl⟩

/-! ## Claims C3, C5, C8, C9 -/

theorem absdiff_self (A : Mat) : absdiff A A = Mat.zeros A.rows A.cols := by
  apply Mat.eq_of
  · rfl
  · rfl
  · intro i j
    unfold absdiff Mat.zeros
    simp

/-- C3: for equal-dimension 8-bit frames, every cell of `abs_difference(A, B)` is
|B[i,j] - A[i,j]|, a value in 0..255, and `abs_difference(A, A)` is all zero. -/
theorem abs_difference_spec (A B : Mat) (hr : A.rows = B.rows) (hc : A.cols = B.cols)
    (hA : A.u8) (hB : B.u8) :
    (∃ D, abs_difference A B = .ok D ∧
      ∀ i j, i < A.rows → j < A.cols →
        ((D.get i j : Int) = |(B.data i j : Int) - (A.data i j : Int)| ∧ D.get i j ≤ 255)) ∧
    (∃ Z, abs_difference A A = .ok Z ∧ ∀ i j, Z.get i j = 0) := by
  refine ⟨⟨_, abs_difference_ok A B hr hc, ?_⟩, ⟨_, abs_difference_ok A A rfl rfl, ?_⟩⟩
  · intro i j hi hj
    have ha := hA i j hi hj
    have hb := hB i j (hr ▸ hi) (hc ▸ hj)
    refine ⟨?_, absdiff_le A B i j⟩
    unfold Mat.get absdiff
    simp only
    rw [if_pos ⟨hr ▸ hi, hc ▸ hj⟩]
    have hle : Int.natAbs ((B.data i j : Int) - (A.data i j : Int)) ≤ 255 := by omega
    rw [min_eq_left hle, Int.natCast_natAbs]
  · intro i j
    rw [absdiff_self]
    rfl

/-- C5: each of the four public operations fails with the dimension-mismatch error exactly when
the two frames differ in rows or columns (no grid is returned then), and returns a grid exactly
when they have equal dimensions, for every iteration count. -/
theorem dimension_mismatch_iff {F : Type} (ar : Arith F) (md : motion_detection F) (A B : Mat)
    (iterations : Int) :
    ((abs_difference A B = .error sizeError ↔ (A.rows ≠ B.rows ∨ A.cols ≠ B.cols)) ∧
      ((∃ R, abs_difference A B = .ok R) ↔ (A.rows = B.rows ∧ A.cols = B.cols))) ∧
    ((fixed_threshold ar md A B = .error sizeError ↔
        (A.rows ≠ B.rows ∨ A.cols ≠ B.cols)) ∧
      ((∃ R, fixed_threshold ar md A B = .ok R) ↔ (A.rows = B.rows ∧ A.cols = B.cols))) ∧
    ((variable_threshold1 ar md A B iterations = .error sizeError ↔
        (A.rows ≠ B.rows ∨ A.cols ≠ B.cols)) ∧
      ((∃ R, variable_threshold1 ar md A B iterations = .ok R) ↔
        (A.rows = B.rows ∧ A.cols = B.cols))) ∧
    ((variable_threshold2 ar md A B iterations = .error sizeError ↔
        (A.rows ≠ B.rows ∨ A.cols ≠ B.cols)) ∧
      ((∃ R, variable_threshold2 ar md A B iterations = .ok R) ↔
        (A.rows = B.rows ∧ A.cols = B.cols))) := by
  by_cases h : A.rows = B.rows ∧ A.cols = B.cols
  · obtain ⟨hr, hc⟩ := h
    have hne : ¬ (A.rows ≠ B.rows ∨ A.cols ≠ B.cols) := by
      rintro (h | h)
      · exact h hr
      · exact h hc
    unfold variable_threshold1 variable_threshold2
    rw [abs_difference_ok A B hr hc, fixed_threshold_ok ar md A B hr hc,
      variable_threshold_ok ar md 4 A B iterations hr hc,
      variable_threshold_ok ar md 8 A B iterations hr hc]
    simp [hr, hc]
  · have hne : A.rows ≠ B.rows ∨ A.cols ≠ B.cols := by
      by_contra hcon
      rw [not_or, not_not, not_not] at hcon
      exact h hcon
    have hs : sizeNe A B = true := (sizeNe_eq_true_iff A B).mpr hne
    unfold variable_threshold1 variable_threshold2 variable_threshold fixed_threshold
      abs_difference
    simp [hs, hne, h]

/-- C8: for every grid and pixel, `get_neighbour_count` returns Qs >= 0 and Qm >= 0 with
Qs + Qm <= 4 for order 4 and Qs + Qm <= 8 for order 8, and for the corner pixel (0,0) with
order 8, Qs + Qm <= 3. -/
theorem neighbour_count_bounded (img : Mat) (row col : Int) :
    (0 ≤ (get_neighbour_count img row col 4).Qs ∧ 0 ≤ (get_neighbour_count img row col 4).Qm ∧
      (get_neighbour_count img row col 4).Qs + (get_neighbour_count img row col 4).Qm ≤ 4) ∧
    (0 ≤ (get_neighbour_count img row col 8).Qs ∧ 0 ≤ (get_neighbour_count img row col 8).Qm ∧
      (get_neighbour_count img row col 8).Qs + (get_neighbour_count img row col 8).Qm ≤ 8) ∧
    (get_neighbour_count img 0 0 8).Qs + (get_neighbour_count img 0 0 8).Qm ≤ 3 := by
  refine ⟨(get_neighbour_count_bounds img row col).1, (get_neighbour_count_bounds img row col).2,
    ?_⟩
  rw [get_neighbour_count_eq]
  simp only
  have t := cs_add_cm_le img 0 0 8
  have c := cs_add_cm_of_not img 0 0 8 0 0 (not_counted_center img 0 0 8)
  have o1 := cs_add_cm_of_not img 0 0 8 (-1) (-1) (not_counted_oob _ _ _ _ _ _ (Or.inl (by decide)))
  have o2 := cs_add_cm_of_not img 0 0 8 (-1) 0 (not_counted_oob _ _ _ _ _ _ (Or.inl (by decide)))
  have o3 := cs_add_cm_of_not img 0 0 8 (-1) 1 (not_counted_oob _ _ _ _ _ _ (Or.inl (by decide)))
  have o4 := cs_add_cm_of_not img 0 0 8 0 (-1)
    (not_counted_oob _ _ _ _ _ _ (Or.inr (Or.inr (Or.inl (by decide)))))
  have o5 := cs_add_cm_of_not img 0 0 8 1 (-1)
    (not_counted_oob _ _ _ _ _ _ (Or.inr (Or.inr (Or.inl (by decide)))))
  linarith [t 0 1, t 1 0, t 1 1]

/-- C9: for frames of equal dimensions and every iteration count, the grid returned by each of
`abs_difference`, `fixed_threshold`, `variable_threshold1` and `variable_threshold2` has exactly
the rows and columns of the input frames. -/
theorem result_dimensions {F : Type} (ar : Arith F) (md : motion_detection F) (A B : Mat)
    (hr : A.rows = B.rows) (hc : A.cols = B.cols) (iterations : Int) :
    ∃ R0 R1 R2 R3, abs_difference A B = .ok R0 ∧ fixed_threshold ar md A B = .ok R1 ∧
      variable_threshold1 ar md A B iterations = .ok R2 ∧
      variable_threshold2 ar md A B iterations = .ok R3 ∧
      (R0.rows = A.rows ∧ R0.cols = A.cols) ∧ (R1.rows = A.rows ∧ R1.cols = A.cols) ∧
      (R2.rows = A.rows ∧ R2.cols = A.cols) ∧ (R3.rows = A.rows ∧ R3.cols = A.cols) ∧
      (R0.rows = B.rows ∧ R0.cols = B.cols) := by
  refine ⟨_, _, _, _, abs_difference_ok A B hr hc, fixed_threshold_ok ar md A B hr hc,
    variable_threshold_ok ar md 4 A B iterations hr hc,
    variable_threshold_ok ar md 8 A B iterations hr hc, ?_, ?_, ?_, ?_, ?_⟩
  · exact ⟨hr.symm, hc.symm⟩
  · rw [sweepPre_rows, sweepPre_cols]
    exact ⟨hr.symm, hc.symm⟩
  · rw [rounds_rows, rounds_cols]
    exact ⟨hr.symm, hc.symm⟩
  · rw [rounds_rows, rounds_cols]
    exact ⟨hr.symm, hc.symm⟩
  · exact ⟨rfl, rfl⟩

/-! ## Claims C1, C2, C6 -/

theorem fixed_value_binary {F : Type} (ar : Arith F)
    (md : motion_detection F) (i j : Nat) (G : Mat) :
    fixed_value ar md i j G = 0 ∨ fixed_value ar md i j G = 255 := by
  unfold fixed_value
  split_ifs
  · exact Or.inr rfl
  · exact Or.inl rfl

theorem adaptive_value_binary {F : Type} (ar : Arith F)
    (md : motion_detection F) (N : Int) (D : Mat) (i j : Nat) (G : Mat) :
    adaptive_value ar md N D i j G = 0 ∨ adaptive_value ar md N D i j G = 255 := by
  unfold adaptive_value
  simp only
  split_ifs
  · exact Or.inr rfl
  · exact Or.inl rfl

/-- C1 amended: for equal-dimension 8-bit frames and every parameter triple (so also for
theta > 0 and sigma_s != 0), every cell of the mask `fixed_threshold` returns is 0 or 255, and it
is 255 if and only if (|B[i,j] - A[i,j]|)^2 > 2*sigma_s^2*ln(theta*sigma_m/sigma_s) with
sigma_m = 5*sigma_s, both sides and the comparison being evaluated by the floating-point
operations `ar` the code runs on (so for `ieeeArith` as well), whatever they return, and not as
real numbers; the comparison being strict, a cell whose squared difference equals the threshold
is 0. -/
theorem fixed_threshold_spec {F : Type} (ar : Arith F) (md : motion_detection F) (A B : Mat)
    (hr : A.rows = B.rows) (hc : A.cols = B.cols) (hA : A.u8) (hB : B.u8) :
    ∃ R, fixed_threshold ar md A B = .ok R ∧
      ∀ i j, i < A.rows → j < A.cols →
        (R.get i j = 0 ∨ R.get i j = 255) ∧
        (R.get i j = 255 ↔
          ar.gt (ar.pow2u (Int.natAbs ((B.data i j : Int) - (A.data i j : Int))))
            (ar.mul (ar.mul ar.two (ar.pow2 md.sigma_s))
              (ar.log (ar.div (ar.mul md.theta (ar.imulf 5 md.sigma_s)) md.sigma_s))) = true) ∧
        (ar.pow2u (Int.natAbs ((B.data i j : Int) - (A.data i j : Int))) =
            ar.mul (ar.mul ar.two (ar.pow2 md.sigma_s))
              (ar.log (ar.div (ar.mul md.theta (ar.imulf 5 md.sigma_s)) md.sigma_s)) →
          R.get i j = 0) := by
  refine ⟨_, fixed_threshold_ok ar md A B hr hc, ?_⟩
  intro i j hi hj
  have ha := hA i j hi hj
  have hb := hB i j (hr ▸ hi) (hc ▸ hj)
  have hd : (absdiff B A).get i j = Int.natAbs ((B.data i j : Int) - (A.data i j : Int)) := by
    unfold Mat.get absdiff
    simp only
    rw [if_pos ⟨hr ▸ hi, hc ▸ hj⟩]
    have hle : Int.natAbs ((B.data i j : Int) - (A.data i j : Int)) ≤ 255 := by omega
    exact min_eq_left hle
  unfold Mat.get
  rw [fixed_sweep_data, if_pos ⟨hi, hj⟩]
  refine ⟨fixed_value_binary _ _ _ _ _, ?_, ?_⟩
  · unfold fixed_value
    rw [hd]
    split_ifs with h
    · exact ⟨fun _ => h, fun _ => rfl⟩
    · exact ⟨fun h2 => absurd h2 (by decide), fun h2 => absurd h2 h⟩
  · intro heq
    unfold fixed_value
    rw [hd, heq, ar.gt_irrefl]
    rfl

/-- C2 amended: one round of the adaptive classifier is an in-place row-major sweep: for every
working mask M, difference map D, parameters and floating-point operations `ar` (so for
`ieeeArith` as well), the round turns M into M' with, at every pixel (i,j) the loops visit,
M'[i,j] = 255 if D[i,j]^2 > 2*sigma_s^2*(ln(theta*sigma_m/sigma_s) + (Qs - Qm)/T), evaluated by
`ar` and not as real numbers, and 0 otherwise, where (Qs, Qm) is `get_neighbour_count` over the grid that holds M' at every position
before (i,j) in row-major order and M at every other position; the compared value is D[i,j].
Cells outside the loops are those of M. The order (4 for `variable_threshold1`, 8 for
`variable_threshold2`) is the parameter `N`. -/
theorem adaptive_round_spec {F : Type} (ar : Arith F) (md : motion_detection F) (N : Int)
    (D M : Mat) (rows cols : Nat) :
    (adaptive_round ar md N D rows cols M).rows = M.rows ∧
    (adaptive_round ar md N D rows cols M).cols = M.cols ∧
    ∀ i j,
      (adaptive_round ar md N D rows cols M).get i j =
        if i < rows ∧ j < cols then
          (if ar.gt (ar.pow2u (D.get i j))
            (ar.mul (ar.mul ar.two (ar.pow2 md.sigma_s))
              (ar.add (ar.log (ar.div (ar.mul md.theta (ar.imulf 5 md.sigma_s)) md.sigma_s))
                (ar.idivf
                  ((get_neighbour_count
                      (hybrid (adaptive_round ar md N D rows cols M) M i j) i j N).Qs -
                    (get_neighbour_count
                      (hybrid (adaptive_round ar md N D rows cols M) M i j) i j N).Qm)
                  md.T))) = true
          then 255 else 0)
        else M.get i j := by
  refine ⟨adaptive_round_rows _ _ _ _ _ _ _, adaptive_round_cols _ _ _ _ _ _ _, ?_⟩
  intro i j
  unfold Mat.get
  rw [adaptive_round_eq_sweep, sweep_data]
  rfl

/-- C6 as stated fails at iteration count 0: on the 1x1 frames `[0]` and `[7]` both adaptive
classifiers return the grid `[7]`, an intermediate intensity. -/
theorem adaptive_mask_not_binary_at_zero_iterations :
    (∃ R, variable_threshold1 (exactArith Real.log) demoParams (constFrame 1 1 0)
        (constFrame 1 1 7) 0 = .ok R ∧ R.get 0 0 = 7) ∧
    (∃ R, variable_threshold2 (exactArith Real.log) demoParams (constFrame 1 1 0)
        (constFrame 1 1 7) 0 = .ok R ∧ R.get 0 0 = 7) := by
  unfold variable_threshold1 variable_threshold2
  rw [variable_threshold_ok (exactArith Real.log) demoParams 4 (constFrame 1 1 0)
      (constFrame 1 1 7) 0 rfl rfl,
    variable_threshold_ok (exactArith Real.log) demoParams 8 (constFrame 1 1 0)
      (constFrame 1 1 7) 0 rfl rfl]
  exact ⟨⟨_, rfl, by decide⟩, ⟨_, rfl, by decide⟩⟩

/-- C6 amended: for frames of equal dimensions, every parameter triple and every iteration count
>= 1, every cell of the mask returned by `variable_threshold1` and by `variable_threshold2` is
either 0 or 255. -/
theorem adaptive_mask_binary {F : Type} (ar : Arith F) (md : motion_detection F) (A B : Mat)
    (hr : A.rows = B.rows) (hc : A.cols = B.cols) (iterations : Int) (hit : 1 ≤ iterations) :
    ∃ R1 R2, variable_threshold1 ar md A B iterations = .ok R1 ∧
      variable_threshold2 ar md A B iterations = .ok R2 ∧
      ∀ i j, (R1.get i j = 0 ∨ R1.get i j = 255) ∧ (R2.get i j = 0 ∨ R2.get i j = 255) := by
  obtain ⟨k, hk⟩ : ∃ k, iterations.toNat = k + 1 := ⟨iterations.toNat - 1, by omega⟩
  refine ⟨_, _, variable_threshold_ok ar md 4 A B iterations hr hc,
    variable_threshold_ok ar md 8 A B iterations hr hc, ?_⟩
  intro i j
  rw [hk]
  unfold Mat.get
  by_cases h : i < A.rows ∧ j < A.cols
  · obtain ⟨G1, h1⟩ := rounds_data_inside ar md 4 (absdiff B A) A.rows A.cols k
      (absdiff B A) i j h.1 h.2
    obtain ⟨G2, h2⟩ := rounds_data_inside ar md 8 (absdiff B A) A.rows A.cols k
      (absdiff B A) i j h.1 h.2
    rw [h1, h2]
    exact ⟨adaptive_value_binary _ _ _ _ _ _ _, adaptive_value_binary _ _ _ _ _ _ _⟩
  · rw [rounds_data_outside _ _ _ _ _ _ _ _ _ _ h, rounds_data_outside _ _ _ _ _ _ _ _ _ _ h,
      absdiff_outside A B i j (by rw [← hr, ← hc]; exact h)]
    exact ⟨Or.inl rfl, Or.inl rfl⟩

/-! ## Claim C4 -/

theorem cs_eq_of (img : Mat) (row col N di dj : Int) (r c : Int) (hr : r = row + di)
    (hc : c = col + dj) (h0 : ¬ (di = 0 ∧ dj = 0)) (hN : (N = 4 ∧ |di + dj| = 1) ∨ N = 8) :
    cs img row col N di dj =
      if decide (inGrid img (r, c) ∧ img.get (r, c).1.toNat (r, c).2.toNat = 0) = true
      then 1 else 0 := by
  subst hr hc
  unfold cs counted inGrid Mat.get
  simp only [decide_eq_true_eq]
  by_cases hb : 0 ≤ row + di ∧ row + di < img.rows ∧ 0 ≤ col + dj ∧ col + dj < img.cols
  · have hb2 : ¬ (row + di < 0 ∨ row + di ≥ img.rows ∨ col + dj < 0 ∨ col + dj ≥ img.cols) := by
      omega
    simp only [h0, hb, hb2, hN, not_false_eq_true, true_and]
  · have hb2 : row + di < 0 ∨ row + di ≥ img.rows ∨ col + dj < 0 ∨ col + dj ≥ img.cols := by
      omega
    simp only [hb, hb2, not_true_eq_false, false_and, and_false, if_false]

theorem cm_eq_of (img : Mat) (row col N di dj : Int) (r c : Int) (hr : r = row + di)
    (hc : c = col + dj) (h0 : ¬ (di = 0 ∧ dj = 0)) (hN : (N = 4 ∧ |di + dj| = 1) ∨ N = 8) :
    cm img row col N di dj =
      if decide (inGrid img (r, c) ∧ img.get (r, c).1.toNat (r, c).2.toNat ≠ 0) = true
      then 1 else 0 := by
  subst hr hc
  unfold cm counted inGrid Mat.get
  simp only [decide_eq_true_eq]
  by_cases hb : 0 ≤ row + di ∧ row + di < img.rows ∧ 0 ≤ col + dj ∧ col + dj < img.cols
  · have hb2 : ¬ (row + di < 0 ∨ row + di ≥ img.rows ∨ col + dj < 0 ∨ col + dj ≥ img.cols) := by
      omega
    simp only [h0, hb, hb2, hN, not_false_eq_true, true_and]
  · have hb2 : row + di < 0 ∨ row + di ≥ img.rows ∨ col + dj < 0 ∨ col + dj ≥ img.cols := by
      omega
    simp only [hb, hb2, not_true_eq_false, false_and, and_false, if_false]

theorem cs_zero_of_not (img : Mat) (row col N i j : Int) (h : ¬ counted img row col N i j) :
    cs img row col N i j = 0 := by
  unfold cs; simp [h]

theorem cm_zero_of_not (img : Mat) (row col N i j : Int) (h : ¬ counted img row col N i j) :
    cm img row col N i j = 0 := by
  unfold cm; simp [h]

/-- C4: for every grid and pixel, with order 4 `Qs`/`Qm` are the numbers of in-grid cells among
(row-1,col), (row+1,col), (row,col-1), (row,col+1) with value zero / non-zero, and with order 8
the same over the eight surrounding cells; out-of-grid neighbours and the pixel itself are not
counted. -/
theorem get_neighbour_count_spec (img : Mat) (row col : Int) :
    get_neighbour_count img row col 4 =
      ⟨countStatic img (cells4 row col), countMoving img (cells4 row col)⟩ ∧
    get_neighbour_count img row col 8 =
      ⟨countStatic img (cells8 row col), countMoving img (cells8 row col)⟩ ∧
    (row, col) ∉ cells4 row col ∧ (row, col) ∉ cells8 row col := by
  have d4 : ∀ di dj : Int, |di + dj| ≠ 1 → cs img row col 4 di dj = 0 ∧ cm img row col 4 di dj = 0 :=
    fun di dj h => ⟨cs_zero_of_not _ _ _ _ _ _ (not_counted_diag img row col di dj h),
      cm_zero_of_not _ _ _ _ _ _ (not_counted_diag img row col di dj h)⟩
  have c0 : ∀ N : Int, cs img row col N 0 0 = 0 ∧ cm img row col N 0 0 = 0 :=
    fun N => ⟨cs_zero_of_not _ _ _ _ _ _ (not_counted_center img row col N),
      cm_zero_of_not _ _ _ _ _ _ (not_counted_center img row col N)⟩
  refine ⟨?_, ?_, ?_, ?_⟩
  · rw [get_neighbour_count_eq]
    simp only [countStatic, countMoving, cells4, List.countP_cons, List.countP_nil]
    rw [(d4 (-1) (-1) (by decide)).1, (d4 (-1) (-1) (by decide)).2,
      (d4 (-1) 1 (by decide)).1, (d4 (-1) 1 (by decide)).2,
      (d4 1 (-1) (by decide)).1, (d4 1 (-1) (by decide)).2,
      (d4 1 1 (by decide)).1, (d4 1 1 (by decide)).2, (c0 4).1, (c0 4).2,
      cs_eq_of img row col 4 (-1) 0 (row - 1) col (by ring) (by ring) (by decide)
        (Or.inl ⟨rfl, by decide⟩),
      cs_eq_of img row col 4 1 0 (row + 1) col (by ring) (by ring) (by decide)
        (Or.inl ⟨rfl, by decide⟩),
      cs_eq_of img row col 4 0 (-1) row (col - 1) (by ring) (by ring) (by decide)
        (Or.inl ⟨rfl, by decide⟩),
      cs_eq_of img row col 4 0 1 row (col + 1) (by ring) (by ring) (by decide)
        (Or.inl ⟨rfl, by decide⟩),
      cm_eq_of img row col 4 (-1) 0 (row - 1) col (by ring) (by ring) (by decide)
        (Or.inl ⟨rfl, by decide⟩),
      cm_eq_of img row col 4 1 0 (row + 1) col (by ring) (by ring) (by decide)
        (Or.inl ⟨rfl, by decide⟩),
      cm_eq_of img row col 4 0 (-1) row (col - 1) (by ring) (by ring) (by decide)
        (Or.inl ⟨rfl, by decide⟩),
      cm_eq_of img row col 4 0 1 row (col + 1) (by ring) (by ring) (by decide)
        (Or.inl ⟨rfl, by decide⟩)]
    congr 1
    · push_cast
      ring
    · push_cast
      ring
  · rw [get_neighbour_count_eq]
    simp only [countStatic, countMoving, cells8, List.countP_cons, List.countP_nil]
    rw [(c0 8).1, (c0 8).2,
      cs_eq_of img row col 8 (-1) (-1) (row - 1) (col - 1) (by ring) (by ring) (by decide)
        (Or.inr rfl),
      cs_eq_of img row col 8 (-1) 0 (row - 1) col (by ring) (by ring) (by decide) (Or.inr rfl),
      cs_eq_of img row col 8 (-1) 1 (row - 1) (col + 1) (by ring) (by ring) (by decide)
        (Or.inr rfl),
      cs_eq_of img row col 8 0 (-1) row (col - 1) (by ring) (by ring) (by decide) (Or.inr rfl),
      cs_eq_of img row col 8 0 1 row (col + 1) (by ring) (by ring) (by decide) (Or.inr rfl),
      cs_eq_of img row col 8 1 (-1) (row + 1) (col - 1) (by ring) (by ring) (by decide)
        (Or.inr rfl),
      cs_eq_of img row col 8 1 0 (row + 1) col (by ring) (by ring) (by decide) (Or.inr rfl),
      cs_eq_of img row col 8 1 1 (row + 1) (col + 1) (by ring) (by ring) (by decide)
        (Or.inr rfl),
      cm_eq_of img row col 8 (-1) (-1) (row - 1) (col - 1) (by ring) (by ring) (by decide)
        (Or.inr rfl),
      cm_eq_of img row col 8 (-1) 0 (row - 1) col (by ring) (by ring) (by decide) (Or.inr rfl),
      cm_eq_of img row col 8 (-1) 1 (row - 1) (col + 1) (by ring) (by ring) (by decide)
        (Or.inr rfl),
      cm_eq_of img row col 8 0 (-1) row (col - 1) (by ring) (by ring) (by decide) (Or.inr rfl),
      cm_eq_of img row col 8 0 1 row (col + 1) (by ring) (by ring) (by decide) (Or.inr rfl),
      cm_eq_of img row col 8 1 (-1) (row + 1) (col - 1) (by ring) (by ring) (by decide)
        (Or.inr rfl),
      cm_eq_of img row col 8 1 0 (row + 1) col (by ring) (by ring) (by decide) (Or.inr rfl),
      cm_eq_of img row col 8 1 1 (row + 1) (col + 1) (by ring) (by ring) (by decide)
        (Or.inr rfl)]
    congr 1
    · push_cast
      ring
    · push_cast
      ring
  · intro h
    simp only [cells4, List.mem_cons, Prod.mk.injEq, List.mem_nil_iff, or_false] at h
    omega
  · intro h
    simp only [cells8, List.mem_cons, Prod.mk.injEq, List.mem_nil_iff, or_false] at h
    omega

/-! ## The threshold of the scenario of claim C10 without rounding -/

theorem log_five_bounds : (16092 / 10000 : ℝ) < Real.log 5 ∧ Real.log 5 < 16124 / 10000 := by
  have h := Real.abs_log_sub_add_sum_range_le (x := (1 / 5 : ℝ)) (by norm_num [abs_of_pos]) 5
  have h4 : Real.log (1 - 1 / 5 : ℝ) = 2 * Real.log 2 - Real.log 5 := by
    have e : (1 - 1 / 5 : ℝ) = 2 ^ 2 / 5 := by norm_num
    rw [e, Real.log_div (by norm_num) (by norm_num), Real.log_pow]
    norm_num
  rw [h4] at h
  have hx : |(1 / 5 : ℝ)| = 1 / 5 := abs_of_pos (by norm_num)
  rw [hx] at h
  simp only [Finset.sum_range_succ, Finset.sum_range_zero] at h
  rw [abs_le] at h
  have l1 := Real.log_two_gt_d9
  have l2 := Real.log_two_lt_d9
  norm_num at h
  constructor <;> linarith [h.1, h.2]

theorem demo_threshold_eq :
    2 * (demoParams : motion_detection ℝ).sigma_s ^ 2 *
        Real.log ((demoParams : motion_detection ℝ).theta *
          (5 * (demoParams : motion_detection ℝ).sigma_s) /
          (demoParams : motion_detection ℝ).sigma_s) =
      2 * (122 / 100) ^ 2 * Real.log 5 := by
  rw [log_arg_eq _ _ (by norm_num [demoParams])]
  norm_num [demoParams]

/-! ## Witnesses of C1, C3, C6, C9 -/

theorem constFrame_u8 (rows cols v : Nat) (hv : v ≤ 255) : (constFrame rows cols v).u8 := by
  intro i j _ _
  exact hv

theorem centerFrame_u8 : centerFrame.u8 := by
  intro i j _ _
  unfold centerFrame
  simp only
  split_ifs
  · exact le_refl 255
  · exact Nat.zero_le 255

theorem fixed_threshold_spec_witness :
    ∃ R, fixed_threshold (ieeeArith Real.log) demoFloatParams (constFrame 3 3 0) centerFrame = .ok R ∧
      ∀ i j, i < (constFrame 3 3 0).rows → j < (constFrame 3 3 0).cols →
        (R.get i j = 0 ∨ R.get i j = 255) ∧
        (R.get i j = 255 ↔
          (ieeeArith Real.log).gt
            ((ieeeArith Real.log).pow2u
              (Int.natAbs ((centerFrame.data i j : Int) - ((constFrame 3 3 0).data i j : Int))))
            ((ieeeArith Real.log).mul
              ((ieeeArith Real.log).mul (ieeeArith Real.log).two
                ((ieeeArith Real.log).pow2 (demoFloatParams : motion_detection (Fl ℝ)).sigma_s))
              ((ieeeArith Real.log).log
                ((ieeeArith Real.log).div
                  ((ieeeArith Real.log).mul (demoFloatParams : motion_detection (Fl ℝ)).theta
                    ((ieeeArith Real.log).imulf 5 (demoFloatParams : motion_detection (Fl ℝ)).sigma_s))
                  (demoFloatParams : motion_detection (Fl ℝ)).sigma_s))) = true) ∧
        ((ieeeArith Real.log).pow2u
              (Int.natAbs ((centerFrame.data i j : Int) - ((constFrame 3 3 0).data i j : Int))) =
            (ieeeArith Real.log).mul
              ((ieeeArith Real.log).mul (ieeeArith Real.log).two
                ((ieeeArith Real.log).pow2 (demoFloatParams : motion_detection (Fl ℝ)).sigma_s))
              ((ieeeArith Real.log).log
                ((ieeeArith Real.log).div
                  ((ieeeArith Real.log).mul (demoFloatParams : motion_detection (Fl ℝ)).theta
                    ((ieeeArith Real.log).imulf 5 (demoFloatParams : motion_detection (Fl ℝ)).sigma_s))
                  (demoFloatParams : motion_detection (Fl ℝ)).sigma_s)) →
          R.get i j = 0) :=
  fixed_threshold_spec (ieeeArith Real.log) demoFloatParams (constFrame 3 3 0) centerFrame rfl rfl
    (constFrame_u8 3 3 0 (by decide)) centerFrame_u8

theorem abs_difference_spec_witness :
    (∃ D, abs_difference (constFrame 3 3 0) centerFrame = .ok D ∧
      ∀ i j, i < (constFrame 3 3 0).rows → j < (constFrame 3 3 0).cols →
        ((D.get i j : Int) =
            |(centerFrame.data i j : Int) - ((constFrame 3 3 0).data i j : Int)| ∧
          D.get i j ≤ 255)) ∧
    (∃ Z, abs_difference (constFrame 3 3 0) (constFrame 3 3 0) = .ok Z ∧ ∀ i j, Z.get i j = 0) :=
  abs_difference_spec (constFrame 3 3 0) centerFrame rfl rfl (constFrame_u8 3 3 0 (by decide))
    centerFrame_u8

theorem adaptive_mask_binary_witness :
    ∃ R1 R2,
      variable_threshold1 (exactArith Real.log) demoParams (constFrame 3 3 0) centerFrame 5 =
        .ok R1 ∧
      variable_threshold2 (exactArith Real.log) demoParams (constFrame 3 3 0) centerFrame 5 =
        .ok R2 ∧
      ∀ i j, (R1.get i j = 0 ∨ R1.get i j = 255) ∧ (R2.get i j = 0 ∨ R2.get i j = 255) :=
  adaptive_mask_binary (exactArith Real.log) demoParams (constFrame 3 3 0) centerFrame rfl rfl 5
    (by decide)

theorem result_dimensions_witness :
    ∃ R0 R1 R2 R3, abs_difference (constFrame 3 3 0) centerFrame = .ok R0 ∧
      fixed_threshold (exactArith Real.log) demoParams (constFrame 3 3 0) centerFrame = .ok R1 ∧
      variable_threshold1 (exactArith Real.log) demoParams (constFrame 3 3 0) centerFrame 5 =
        .ok R2 ∧
      variable_threshold2 (exactArith Real.log) demoParams (constFrame 3 3 0) centerFrame 5 =
        .ok R3 ∧
      (R0.rows = (constFrame 3 3 0).rows ∧ R0.cols = (constFrame 3 3 0).cols) ∧
      (R1.rows = (constFrame 3 3 0).rows ∧ R1.cols = (constFrame 3 3 0).cols) ∧
      (R2.rows = (constFrame 3 3 0).rows ∧ R2.cols = (constFrame 3 3 0).cols) ∧
      (R3.rows = (constFrame 3 3 0).rows ∧ R3.cols = (constFrame 3 3 0).cols) ∧
      (R0.rows = centerFrame.rows ∧ R0.cols = centerFrame.cols) :=
  result_dimensions (exactArith Real.log) demoParams (constFrame 3 3 0) centerFrame rfl rfl 5

/-! ## Witnesses of C11, C14, C16 -/

theorem inplace_round_eq_parallel_round_at_witness :
    (adaptive_round (exactArith Real.log) unitParams 4 (pairFrame 1 1) 1 2
        (pairFrame 1 1)).data 0 1 =
      (parallel_round (exactArith Real.log) unitParams 4 (pairFrame 1 1) 1 2
        (pairFrame 1 1)).data 0 1 :=
  inplace_round_eq_parallel_round_at (exactArith Real.log) unitParams 4 (pairFrame 1 1)
    (pairFrame 1 1) 1 2 0 1
    (by decide) (by decide) (by
      intro r c hb _ _ _
      have hrc : r = 0 ∧ c = 0 := by
        unfold before at hb
        omega
      obtain ⟨rfl, rfl⟩ := hrc
      rw [ones_inplace_first]
      simp [pairFrame])

theorem no_round_returns_abs_difference_witness :
    variable_threshold1 (exactArith Real.log) demoParams (constFrame 3 3 0) centerFrame 0 =
      abs_difference (constFrame 3 3 0) centerFrame ∧
    variable_threshold2 (exactArith Real.log) demoParams (constFrame 3 3 0) centerFrame 0 =
      abs_difference (constFrame 3 3 0) centerFrame ∧
    abs_difference (constFrame 3 3 0) centerFrame = .ok (absdiff centerFrame (constFrame 3 3 0)) :=
  no_round_returns_abs_difference (exactArith Real.log) demoParams (constFrame 3 3 0) centerFrame
    rfl rfl 0 (le_refl 0)

theorem frame_order_irrelevant_witness :
    abs_difference (constFrame 3 3 0) centerFrame = abs_difference centerFrame (constFrame 3 3 0) ∧
    fixed_threshold (exactArith Real.log) demoParams (constFrame 3 3 0) centerFrame =
      fixed_threshold (exactArith Real.log) demoParams centerFrame (constFrame 3 3 0) ∧
    variable_threshold1 (exactArith Real.log) demoParams (constFrame 3 3 0) centerFrame 5 =
      variable_threshold1 (exactArith Real.log) demoParams centerFrame (constFrame 3 3 0) 5 ∧
    variable_threshold2 (exactArith Real.log) demoParams (constFrame 3 3 0) centerFrame 5 =
      variable_threshold2 (exactArith Real.log) demoParams centerFrame (constFrame 3 3 0) 5 :=
  frame_order_irrelevant (exactArith Real.log) demoParams (constFrame 3 3 0) centerFrame rfl rfl 5

/-! ## Rounding -/

theorem floor_le_rne {K : Type} [LinearOrderedField K] [FloorRing K] (y : K) : ⌊y⌋ ≤ rne y := by
  unfold rne
  split_ifs <;> omega

theorem rne_le_floor_add_one {K : Type} [LinearOrderedField K] [FloorRing K] (y : K) :
    rne y ≤ ⌊y⌋ + 1 := by
  unfold rne
  split_ifs <;> omega

theorem rne_intCast {K : Type} [LinearOrderedField K] [FloorRing K] (n : Int) :
    rne (n : K) = n := by
  unfold rne
  simp

theorem rne_mono {K : Type} [LinearOrderedField K] [FloorRing K] {y z : K} (h : y ≤ z) :
    rne y ≤ rne z := by
  have hf : ⌊y⌋ ≤ ⌊z⌋ := Int.floor_mono h
  rcases lt_or_eq_of_le hf with hlt | heq
  · calc rne y ≤ ⌊y⌋ + 1 := rne_le_floor_add_one y
      _ ≤ ⌊z⌋ := hlt
      _ ≤ rne z := floor_le_rne z
  · have hfr : y - ⌊y⌋ ≤ z - ⌊z⌋ := by rw [heq]; linarith
    unfold rne
    rw [heq]
    split_ifs <;> first | omega | (exfalso; linarith)

theorem rne_neg {K : Type} [LinearOrderedField K] [FloorRing K] (y : K) :
    rne (-y) = -rne y := by
  by_cases hy : y = (⌊y⌋ : K)
  · rw [hy, ← Int.cast_neg, rne_intCast, rne_intCast]
  · have h1 : (⌊y⌋ : K) ≤ y := Int.floor_le y
    have h2 : y < ⌊y⌋ + 1 := Int.lt_floor_add_one y
    have h3 : (⌊y⌋ : K) < y := lt_of_le_of_ne h1 (Ne.symm hy)
    have hfl : ⌊-y⌋ = -⌊y⌋ - 1 := by
      rw [Int.floor_eq_iff]
      push_cast
      constructor <;> linarith
    unfold rne
    rw [hfl]
    push_cast
    split_ifs <;> first | omega | (exfalso; linarith)

theorem two_zpow_pos {K : Type} [LinearOrderedField K] (k : Int) : (0 : K) < (2 : K) ^ k :=
  zpow_pos (by norm_num) k

theorem two_zpow_le {K : Type} [LinearOrderedField K] {a b : Int} (h : a ≤ b) :
    (2 : K) ^ a ≤ (2 : K) ^ b :=
  zpow_le_zpow_right₀ (by norm_num) h

theorem two_zpow_log_le {K : Type} [LinearOrderedField K] [FloorRing K] {x : K} (hx : 0 < x) :
    (2 : K) ^ Int.log 2 x ≤ x := by
  simpa using Int.zpow_log_le_self (b := 2) (by norm_num) hx

theorem lt_two_zpow_log {K : Type} [LinearOrderedField K] [FloorRing K] (x : K) :
    x < (2 : K) ^ (Int.log 2 x + 1) := by
  simpa using Int.lt_zpow_succ_log_self (b := 2) (by norm_num) x

theorem Fmt.ulp_pos {K : Type} [LinearOrderedField K] [FloorRing K] (f : Fmt) (x : K) :
    0 < f.ulp x := two_zpow_pos _

theorem Fmt.emin_le_expOf {K : Type} [LinearOrderedField K] [FloorRing K] (f : Fmt) (x : K) :
    f.emin ≤ f.expOf x := by
  unfold Fmt.expOf
  split_ifs
  · exact le_rfl
  · exact le_max_right _ _

theorem Fmt.expOf_neg {K : Type} [LinearOrderedField K] [FloorRing K] (f : Fmt) (x : K) :
    f.expOf (-x) = f.expOf x := by
  unfold Fmt.expOf
  simp

theorem Fmt.ulp_neg {K : Type} [LinearOrderedField K] [FloorRing K] (f : Fmt) (x : K) :
    f.ulp (-x) = f.ulp x := by
  unfold Fmt.ulp
  rw [Fmt.expOf_neg]

theorem Fmt.rnd_neg {K : Type} [LinearOrderedField K] [FloorRing K] (f : Fmt) (x : K) :
    f.rnd (-x) = -f.rnd x := by
  unfold Fmt.rnd
  rw [Fmt.ulp_neg, neg_div, rne_neg]
  push_cast
  ring

theorem Fmt.rnd_zero {K : Type} [LinearOrderedField K] [FloorRing K] (f : Fmt) :
    f.rnd (0 : K) = 0 := by
  unfold Fmt.rnd
  rw [zero_div]
  have : rne (0 : K) = 0 := by
    have := rne_intCast (K := K) 0
    simpa using this
  rw [this]
  simp

theorem Fmt.expOf_mono {K : Type} [LinearOrderedField K] [FloorRing K] (f : Fmt) {x y : K}
    (h : |x| ≤ |y|) : f.expOf x ≤ f.expOf y := by
  by_cases hx : x = 0
  · have : f.expOf x = f.emin := by unfold Fmt.expOf; rw [if_pos hx]
    rw [this]
    exact f.emin_le_expOf y
  · have hy : y ≠ 0 := by
      intro hy
      rw [hy, abs_zero] at h
      exact hx (abs_eq_zero.mp (le_antisymm h (abs_nonneg x)))
    unfold Fmt.expOf
    rw [if_neg hx, if_neg hy]
    exact max_le_max (Int.log_mono_right (abs_pos.mpr hx) h) le_rfl

/-- A non-negative number rounds to at most the top of its binade. -/
theorem Fmt.rnd_le_top {K : Type} [LinearOrderedField K] [FloorRing K] (f : Fmt) {x : K}
    (hx : 0 ≤ x) : f.rnd x ≤ (2 : K) ^ (f.expOf x + 1) := by
  have hu := f.ulp_pos x
  have hxt : x ≤ (2 : K) ^ (f.expOf x + 1) := by
    by_cases h0 : x = 0
    · rw [h0]; exact le_of_lt (two_zpow_pos _)
    · have h1 : x < (2 : K) ^ (Int.log 2 x + 1) := lt_two_zpow_log x
      have h2 : Int.log 2 x + 1 ≤ f.expOf x + 1 := by
        unfold Fmt.expOf
        rw [if_neg h0, abs_of_nonneg hx]
        have := le_max_left (Int.log 2 x) f.emin
        omega
      exact le_trans (le_of_lt h1) (two_zpow_le h2)
  have key : (2 : K) ^ (f.expOf x + 1) = ((2 ^ f.prec : Int) : K) * f.ulp x := by
    unfold Fmt.ulp
    push_cast
    rw [← zpow_natCast, ← zpow_add₀ (by norm_num : (2 : K) ≠ 0)]
    congr 1
    omega
  have h3 : x / f.ulp x ≤ ((2 ^ f.prec : Int) : K) := by
    rw [div_le_iff₀ hu, ← key]
    exact hxt
  have h4 := rne_mono h3
  rw [rne_intCast] at h4
  unfold Fmt.rnd
  rw [key]
  exact mul_le_mul_of_nonneg_right (by exact_mod_cast h4) (le_of_lt hu)

/-- A positive normal number rounds to at least the bottom of its binade. -/
theorem Fmt.bottom_le_rnd {K : Type} [LinearOrderedField K] [FloorRing K] (f : Fmt)
    (hp : 1 ≤ f.prec) {x : K} (hx : 0 < x) (hn : f.emin ≤ Int.log 2 x) :
    (2 : K) ^ (f.expOf x) ≤ f.rnd x := by
  have hu := f.ulp_pos x
  have he : f.expOf x = Int.log 2 x := by
    unfold Fmt.expOf
    rw [if_neg (ne_of_gt hx), abs_of_pos hx]
    exact max_eq_left hn
  have hxb : (2 : K) ^ (f.expOf x) ≤ x := by
    rw [he]
    exact two_zpow_log_le hx
  have key : (2 : K) ^ (f.expOf x) = ((2 ^ (f.prec - 1) : Int) : K) * f.ulp x := by
    unfold Fmt.ulp
    push_cast
    rw [← zpow_natCast, ← zpow_add₀ (by norm_num : (2 : K) ≠ 0)]
    congr 1
    omega
  have h3 : ((2 ^ (f.prec - 1) : Int) : K) ≤ x / f.ulp x := by
    rw [le_div_iff₀ hu, ← key]
    exact hxb
  have h4 := rne_mono h3
  rw [rne_intCast] at h4
  unfold Fmt.rnd
  rw [key]
  exact mul_le_mul_of_nonneg_right (by exact_mod_cast h4) (le_of_lt hu)

theorem Fmt.rnd_nonneg {K : Type} [LinearOrderedField K] [FloorRing K] (f : Fmt) {x : K}
    (hx : 0 ≤ x) : 0 ≤ f.rnd x := by
  have hu := f.ulp_pos x
  have h3 : ((0 : Int) : K) ≤ x / f.ulp x := by
    rw [Int.cast_zero]
    exact div_nonneg hx (le_of_lt hu)
  have h4 := rne_mono h3
  rw [rne_intCast] at h4
  unfold Fmt.rnd
  exact mul_nonneg (by exact_mod_cast h4) (le_of_lt hu)

theorem Fmt.rnd_mono_of_nonneg {K : Type} [LinearOrderedField K] [FloorRing K] (f : Fmt)
    (hp : 1 ≤ f.prec) {x y : K} (hx : 0 ≤ x) (h : x ≤ y) : f.rnd x ≤ f.rnd y := by
  have hy : 0 ≤ y := le_trans hx h
  have he : f.expOf x ≤ f.expOf y := f.expOf_mono (by rwa [abs_of_nonneg hx, abs_of_nonneg hy])
  rcases lt_or_eq_of_le he with hlt | heq
  · have hy0 : y ≠ 0 := by
      intro hy0
      have : f.expOf y = f.emin := by unfold Fmt.expOf; rw [if_pos hy0]
      have := f.emin_le_expOf x
      omega
    have hypos : 0 < y := lt_of_le_of_ne hy (Ne.symm hy0)
    have hn : f.emin ≤ Int.log 2 y := by
      by_contra hc
      have : f.expOf y = f.emin := by
        unfold Fmt.expOf
        rw [if_neg hy0, abs_of_pos hypos]
        exact max_eq_right (by omega)
      have := f.emin_le_expOf x
      omega
    calc f.rnd x ≤ (2 : K) ^ (f.expOf x + 1) := f.rnd_le_top hx
      _ ≤ (2 : K) ^ (f.expOf y) := two_zpow_le (by omega)
      _ ≤ f.rnd y := f.bottom_le_rnd hp hypos hn
  · have hu : f.ulp x = f.ulp y := by unfold Fmt.ulp; rw [heq]
    unfold Fmt.rnd
    rw [hu]
    have hpos := f.ulp_pos y
    have := rne_mono (div_le_div_of_nonneg_right h (le_of_lt hpos))
    exact mul_le_mul_of_nonneg_right (by exact_mod_cast this) (le_of_lt hpos)

/-- Rounding is monotone. -/
theorem Fmt.rnd_mono {K : Type} [LinearOrderedField K] [FloorRing K] (f : Fmt)
    (hp : 1 ≤ f.prec) {x y : K} (h : x ≤ y) : f.rnd x ≤ f.rnd y := by
  rcases le_total 0 x with hx | hx
  · exact f.rnd_mono_of_nonneg hp hx h
  · rcases le_total 0 y with hy | hy
    · have h1 : f.rnd x ≤ 0 := by
        have := f.rnd_nonneg (neg_nonneg.mpr hx)
        rw [Fmt.rnd_neg] at this
        linarith
      exact le_trans h1 (f.rnd_nonneg hy)
    · have := f.rnd_mono_of_nonneg hp (neg_nonneg.mpr hy) (neg_le_neg h)
      rw [Fmt.rnd_neg, Fmt.rnd_neg] at this
      linarith

/-- A number of the format's precision and exponent range rounds to itself. -/
theorem Fmt.rnd_of_rep {K : Type} [LinearOrderedField K] [FloorRing K] (f : Fmt) {x : K}
    (h : f.Rep x) : f.rnd x = x := by
  obtain ⟨m, k, hx, hm, hk⟩ := h
  by_cases h0 : x = 0
  · rw [h0]; exact f.rnd_zero
  · have hle : f.expOf x - ((f.prec : Int) - 1) ≤ k := by
      unfold Fmt.expOf
      rw [if_neg h0]
      have hlog : Int.log 2 |x| < (f.prec : Int) + k := by
        rw [← Int.lt_zpow_iff_log_lt (by norm_num) (abs_pos.mpr h0)]
        rw [hx, abs_mul, abs_of_pos (a := (2 : K) ^ k) (two_zpow_pos k)]
        push_cast
        rw [zpow_add₀ (by norm_num : (2 : K) ≠ 0), zpow_natCast]
        apply mul_lt_mul_of_pos_right _ (two_zpow_pos k)
        have : ((|m| : Int) : K) < ((2 ^ f.prec : Int) : K) := by exact_mod_cast hm
        simpa using this
      rcases max_cases (Int.log 2 |x|) f.emin with ⟨h1, _⟩ | ⟨h1, _⟩ <;> rw [h1] <;> omega
    obtain ⟨n, hn⟩ : ∃ n : Nat, k = f.expOf x - ((f.prec : Int) - 1) + n :=
      ⟨(k - (f.expOf x - ((f.prec : Int) - 1))).toNat, by omega⟩
    have hdiv : x / f.ulp x = ((m * 2 ^ n : Int) : K) := by
      rw [div_eq_iff (ne_of_gt (f.ulp_pos x))]
      unfold Fmt.ulp
      generalize f.expOf x - ((f.prec : Int) - 1) = e at hn
      rw [hx, hn, zpow_add₀ (by norm_num : (2 : K) ≠ 0), zpow_natCast]
      push_cast
      ring
    unfold Fmt.rnd
    rw [hdiv, rne_intCast, ← hdiv]
    exact div_mul_cancel₀ x (ne_of_gt (f.ulp_pos x))


/-! ## Rounding into a format -/

theorem rne_eq_of {K : Type} [LinearOrderedField K] [FloorRing K] (y : K) (n : Int)
    (h : |y - (n : K)| < 1 / 2) : rne y = n := by
  rw [abs_lt] at h
  obtain ⟨h1, h2⟩ := h
  rcases le_or_lt (n : K) y with hny | hny
  · have hf : ⌊y⌋ = n := by
      rw [Int.floor_eq_iff]
      constructor <;> linarith
    unfold rne
    rw [hf, if_pos (by linarith)]
  · have hf : ⌊y⌋ = n - 1 := by
      rw [Int.floor_eq_iff]
      push_cast
      constructor <;> linarith
    unfold rne
    rw [hf]
    push_cast
    rw [if_neg (by linarith), if_pos (by linarith)]
    omega

theorem Fmt.expOf_eq {K : Type} [LinearOrderedField K] [FloorRing K] (f : Fmt) (x : K) (e : Int)
    (h1 : (2 : K) ^ e ≤ |x|) (h2 : |x| < (2 : K) ^ (e + 1)) (he : f.emin ≤ e) :
    f.expOf x = e := by
  have hpos : 0 < |x| := lt_of_lt_of_le (two_zpow_pos e) h1
  have hx : x ≠ 0 := abs_pos.mp hpos
  have hlog : Int.log 2 |x| = e := by
    apply le_antisymm
    · have := (Int.lt_zpow_iff_log_lt (b := 2) (by norm_num) hpos (x := e + 1)).mp
        (by simpa using h2)
      omega
    · exact (Int.zpow_le_iff_le_log (b := 2) (by norm_num) hpos).mp (by simpa using h1)
  unfold Fmt.expOf
  rw [if_neg hx, hlog]
  exact max_eq_left he

/-- Evaluation of a rounding: in the binade of exponent `e`, the nearest multiple of the unit
in the last place. -/
theorem Fmt.rnd_eq_of {K : Type} [LinearOrderedField K] [FloorRing K] (f : Fmt) (x : K)
    (e n : Int) (h1 : (2 : K) ^ e ≤ |x|) (h2 : |x| < (2 : K) ^ (e + 1)) (he : f.emin ≤ e)
    (hn : |x / (2 : K) ^ (e - ((f.prec : Int) - 1)) - (n : K)| < 1 / 2) :
    f.rnd x = (n : K) * (2 : K) ^ (e - ((f.prec : Int) - 1)) := by
  unfold Fmt.rnd Fmt.ulp
  rw [f.expOf_eq x e h1 h2 he, rne_eq_of _ n hn]

theorem Fmt.round_of_lt {K : Type} [LinearOrderedField K] [FloorRing K] (f : Fmt) {x : K}
    (h : |f.rnd x| < (2 : K) ^ (f.emax + 1)) : f.round x = .fin (f.rnd x) := by
  unfold Fmt.round
  rw [if_neg (not_le.mpr h)]

/-- A number of the format rounds to itself. -/
theorem Fmt.round_of_rep {K : Type} [LinearOrderedField K] [FloorRing K] (f : Fmt) {x : K}
    (h : f.Rep x) (hb : |x| < (2 : K) ^ (f.emax + 1)) : f.round x = .fin x := by
  have := f.rnd_of_rep h
  rw [f.round_of_lt (by rwa [this]), this]

/-- Rounding keeps a number between two numbers of the format. -/
theorem Fmt.round_bounded {K : Type} [LinearOrderedField K] [FloorRing K] (f : Fmt)
    (hp : 1 ≤ f.prec) {lo hi x : K} (hlo : f.Rep lo) (hhi : f.Rep hi)
    (blo : -(2 : K) ^ (f.emax + 1) < lo) (bhi : hi < (2 : K) ^ (f.emax + 1))
    (h1 : lo ≤ x) (h2 : x ≤ hi) : ∃ y, f.round x = .fin y ∧ lo ≤ y ∧ y ≤ hi := by
  have a1 : lo ≤ f.rnd x := by
    have := f.rnd_mono hp h1
    rwa [f.rnd_of_rep hlo] at this
  have a2 : f.rnd x ≤ hi := by
    have := f.rnd_mono hp h2
    rwa [f.rnd_of_rep hhi] at this
  refine ⟨f.rnd x, f.round_of_lt ?_, a1, a2⟩
  rw [abs_lt]
  constructor <;> linarith

/-- Rounding keeps a number above a non-negative number of the format. -/
theorem Fmt.round_atLeast {K : Type} [LinearOrderedField K] [FloorRing K] (f : Fmt)
    (hp : 1 ≤ f.prec) {b x : K} (hb : f.Rep b) (h0 : 0 ≤ b) (h : b ≤ x) :
    Fl.AtLeast b (f.round x) := by
  have a1 : b ≤ f.rnd x := by
    have := f.rnd_mono hp h
    rwa [f.rnd_of_rep hb] at this
  unfold Fmt.round
  split_ifs with hov hx
  · exact Or.inl rfl
  · exfalso
    have hx0 : x = 0 := le_antisymm (not_lt.mp hx) (le_trans h0 h)
    rw [hx0, f.rnd_zero, abs_zero] at hov
    exact absurd hov (not_le.mpr (two_zpow_pos _))
  · exact Or.inr ⟨_, rfl, a1⟩

/-- Rounding keeps a number below a non-positive number of the format. -/
theorem Fmt.round_atMost {K : Type} [LinearOrderedField K] [FloorRing K] (f : Fmt)
    (hp : 1 ≤ f.prec) {b x : K} (hb : f.Rep b) (h0 : b ≤ 0) (h : x ≤ b) :
    Fl.AtMost b (f.round x) := by
  have a1 : f.rnd x ≤ b := by
    have := f.rnd_mono hp h
    rwa [f.rnd_of_rep hb] at this
  unfold Fmt.round
  split_ifs with hov hx
  · exfalso
    linarith
  · exact Or.inl rfl
  · exact Or.inr ⟨_, rfl, a1⟩

theorem Fmt.rep_zero {K : Type} [LinearOrderedField K] (f : Fmt) : f.Rep (0 : K) :=
  ⟨0, f.emin - ((f.prec : Int) - 1), by simp, by positivity, le_rfl⟩

theorem Fmt.Rep.neg {K : Type} [LinearOrderedField K] {f : Fmt} {x : K} (h : f.Rep x) :
    f.Rep (-x) := by
  obtain ⟨m, k, hx, hm, hk⟩ := h
  exact ⟨-m, k, by rw [hx]; push_cast; ring, by rwa [abs_neg], hk⟩

theorem Fmt.Rep.mul_two_zpow {K : Type} [LinearOrderedField K] {f : Fmt} {x : K} (h : f.Rep x)
    (j : Int) (hj : 0 ≤ j) : f.Rep (x * (2 : K) ^ j) := by
  obtain ⟨m, k, hx, hm, hk⟩ := h
  refine ⟨m, k + j, ?_, hm, by omega⟩
  rw [hx, zpow_add₀ (by norm_num : (2 : K) ≠ 0)]
  ring

/-- A `float` is a `double`. -/
theorem rep64_of_rep32 {K : Type} [LinearOrderedField K] {x : K} (h : binary32.Rep x) :
    binary64.Rep x := by
  obtain ⟨m, k, hx, hm, hk⟩ := h
  refine ⟨m, k, hx, lt_of_lt_of_le hm ?_, ?_⟩
  · simp only [binary32, binary64]
    norm_num
  · simp only [binary32, binary64] at hk ⊢
    omega


/-! ## Evaluation of a rounding -/

theorem prec32 : 1 ≤ binary32.prec := by decide

theorem prec64 : 1 ≤ binary64.prec := by decide

/-- Evaluation of the rounding of a positive number: in the binade of exponent `e`, the nearest
multiple `n * 2 ^ (e - (prec - 1))` of the unit in the last place. -/
theorem Fmt.round_eq_of_pos {K : Type} [LinearOrderedField K] [FloorRing K] (f : Fmt) (x : K)
    (e n : Int) (h1 : (2 : K) ^ e ≤ x) (h2 : x < (2 : K) ^ (e + 1)) (he : f.emin ≤ e)
    (hlo : ((n : K) - 1 / 2) * (2 : K) ^ (e - ((f.prec : Int) - 1)) < x)
    (hhi : x < ((n : K) + 1 / 2) * (2 : K) ^ (e - ((f.prec : Int) - 1)))
    (hn : 0 ≤ n)
    (hfit : (n : K) * (2 : K) ^ (e - ((f.prec : Int) - 1)) < (2 : K) ^ (f.emax + 1)) :
    f.round x = .fin ((n : K) * (2 : K) ^ (e - ((f.prec : Int) - 1))) := by
  have hx : 0 < x := lt_of_lt_of_le (two_zpow_pos e) h1
  have hu := two_zpow_pos (K := K) (e - ((f.prec : Int) - 1))
  have h := f.rnd_eq_of x e n (by rwa [abs_of_pos hx]) (by rwa [abs_of_pos hx]) he (by
    rw [abs_lt]
    constructor
    · rw [lt_sub_iff_add_lt, lt_div_iff₀ hu]
      linarith
    · rw [sub_lt_iff_lt_add, div_lt_iff₀ hu]
      linarith)
  rw [f.round_of_lt, h]
  rw [h, abs_of_nonneg (mul_nonneg (by exact_mod_cast hn) (le_of_lt hu))]
  exact hfit

/-- The `float` nearest to 0.2 is 13421773 / 2^26. -/
theorem round32_one_fifth :
    binary32.round (1 / 5 : ℝ) = .fin (13421773 / 67108864) := by
  have h := binary32.round_eq_of_pos (1 / 5 : ℝ) (-3) 13421773 (by norm_num) (by norm_num)
    (by decide) (by simp only [binary32]; norm_num) (by simp only [binary32]; norm_num)
    (by decide) (by simp only [binary32]; norm_num)
  rw [h]
  simp only [binary32]
  norm_num

/-! ## IEEE 754 operations -/

theorem Fl.leT_pinf {K : Type} [LinearOrderedField K] (v : Fl K) : Fl.leT v .pinf := by
  cases v <;> simp [Fl.leT]

theorem Fl.leT_nan {K : Type} [LinearOrderedField K] (v : Fl K) : Fl.leT v .nan := by
  cases v <;> simp [Fl.leT]

theorem Fl.leT_refl {K : Type} [LinearOrderedField K] (v : Fl K) : Fl.leT v v := by
  cases v <;> simp [Fl.leT]

theorem rne_err {K : Type} [LinearOrderedField K] [FloorRing K] (y : K) :
    |(rne y : K) - y| ≤ 1 / 2 := by
  have h1 : (⌊y⌋ : K) ≤ y := Int.floor_le y
  have h2 : y < ⌊y⌋ + 1 := Int.lt_floor_add_one y
  rw [abs_le]
  unfold rne
  split_ifs with a b c
  · constructor <;> linarith
  · push_cast
    constructor <;> linarith
  · constructor <;> linarith
  · push_cast
    constructor <;> linarith

/-- The rounding error is at most half a unit in the last place. -/
theorem Fmt.rnd_err {K : Type} [LinearOrderedField K] [FloorRing K] (f : Fmt) (x : K) :
    |f.rnd x - x| ≤ f.ulp x / 2 := by
  have hu := f.ulp_pos x
  have h := rne_err (x / f.ulp x)
  have e : f.rnd x - x = ((rne (x / f.ulp x) : K) - x / f.ulp x) * f.ulp x := by
    unfold Fmt.rnd
    field_simp
  rw [e, abs_mul, abs_of_pos hu]
  calc |(rne (x / f.ulp x) : K) - x / f.ulp x| * f.ulp x ≤ 1 / 2 * f.ulp x :=
        mul_le_mul_of_nonneg_right h (le_of_lt hu)
    _ = f.ulp x / 2 := by ring

/-- In the normal range the rounding error is at most `2 ^ (-prec)` times the number. -/
theorem Fmt.rnd_rel_err {K : Type} [LinearOrderedField K] [FloorRing K] (f : Fmt) {x : K}
    (hx : x ≠ 0) (hn : f.emin ≤ Int.log 2 |x|) :
    |f.rnd x - x| ≤ (2 : K) ^ (-(f.prec : Int)) * |x| := by
  have he : f.expOf x = Int.log 2 |x| := by
    unfold Fmt.expOf
    rw [if_neg hx]
    exact max_eq_left hn
  have h1 : (2 : K) ^ (f.expOf x) ≤ |x| := by
    rw [he]
    exact two_zpow_log_le (abs_pos.mpr hx)
  have h2 : f.ulp x / 2 = (2 : K) ^ (-(f.prec : Int)) * (2 : K) ^ (f.expOf x) := by
    unfold Fmt.ulp
    rw [← zpow_add₀ (by norm_num : (2 : K) ≠ 0), div_eq_iff (by norm_num : (2 : K) ≠ 0)]
    have : (2 : K) ^ (-(f.prec : Int) + f.expOf x) * 2 =
        (2 : K) ^ (-(f.prec : Int) + f.expOf x + 1) := by
      rw [zpow_add_one₀ (by norm_num : (2 : K) ≠ 0)]
    rw [this]
    congr 1
    omega
  calc |f.rnd x - x| ≤ f.ulp x / 2 := f.rnd_err x
    _ = (2 : K) ^ (-(f.prec : Int)) * (2 : K) ^ (f.expOf x) := h2
    _ ≤ (2 : K) ^ (-(f.prec : Int)) * |x| :=
        mul_le_mul_of_nonneg_left h1 (le_of_lt (two_zpow_pos _))

/-- A rounded value has the format's precision. -/
theorem Fmt.rep_rnd {K : Type} [LinearOrderedField K] [FloorRing K] (f : Fmt)
    (hp : 1 ≤ f.prec) (x : K) : f.Rep (f.rnd x) := by
  have main : ∀ y : K, 0 ≤ y → f.Rep (f.rnd y) := by
    intro y hy
    have hu := f.ulp_pos y
    have h0 : 0 ≤ rne (y / f.ulp y) := by
      have h3 : ((0 : Int) : K) ≤ y / f.ulp y := by
        rw [Int.cast_zero]
        exact div_nonneg hy (le_of_lt hu)
      have := rne_mono h3
      rwa [rne_intCast] at this
    have htop := f.rnd_le_top hy
    have key : (2 : K) ^ (f.expOf y + 1) = ((2 ^ f.prec : Int) : K) * f.ulp y := by
      unfold Fmt.ulp
      push_cast
      rw [← zpow_natCast, ← zpow_add₀ (by norm_num : (2 : K) ≠ 0)]
      congr 1
      omega
    have hle : rne (y / f.ulp y) ≤ 2 ^ f.prec := by
      unfold Fmt.rnd at htop
      rw [key] at htop
      have := le_of_mul_le_mul_right htop hu
      exact_mod_cast this
    rcases lt_or_eq_of_le hle with hlt | heq
    · refine ⟨rne (y / f.ulp y), f.expOf y - ((f.prec : Int) - 1), rfl, ?_, ?_⟩
      · rw [abs_of_nonneg h0]
        exact hlt
      · have := f.emin_le_expOf y
        omega
    · refine ⟨1, f.expOf y + 1, ?_, ?_, ?_⟩
      · unfold Fmt.rnd
        rw [heq, key]
        push_cast
        ring
      · rw [abs_one]
        have : 1 < 2 ^ f.prec := Nat.one_lt_two_pow (by omega)
        exact_mod_cast this
      · have := f.emin_le_expOf y
        omega
  rcases le_total 0 x with hx | hx
  · exact main x hx
  · have := (main (-x) (neg_nonneg.mpr hx)).neg
    rwa [Fmt.rnd_neg, neg_neg] at this

/-- The product of two `float`s is a `double`. -/
theorem rep64_mul {K : Type} [LinearOrderedField K] {x y : K} (hx : binary32.Rep x)
    (hy : binary32.Rep y) : binary64.Rep (x * y) := by
  obtain ⟨m, k, rfl, hm, hk⟩ := hx
  obtain ⟨n, l, rfl, hn, hl⟩ := hy
  refine ⟨m * n, k + l, ?_, ?_, ?_⟩
  · rw [zpow_add₀ (by norm_num : (2 : K) ≠ 0)]
    push_cast
    ring
  · simp only [binary32, binary64] at hm hn ⊢
    rw [abs_mul]
    have h1 : |m| * |n| < 2 ^ 24 * 2 ^ 24 :=
      mul_lt_mul'' hm hn (abs_nonneg m) (abs_nonneg n)
    calc |m| * |n| < 2 ^ 24 * 2 ^ 24 := h1
      _ ≤ 2 ^ 53 := by norm_num
  · simp only [binary32, binary64] at hk hl ⊢
    omega

/-- A non-zero `float` has magnitude at least `2 ^ (-149)`. -/
theorem rep32_abs_ge {K : Type} [LinearOrderedField K] {x : K} (hx : binary32.Rep x)
    (h0 : x ≠ 0) : (2 : K) ^ (-149 : Int) ≤ |x| := by
  obtain ⟨m, k, rfl, hm, hk⟩ := hx
  have hm0 : m ≠ 0 := by
    rintro rfl
    simp at h0
  have h1 : (1 : K) ≤ |(m : K)| := by
    have : (1 : Int) ≤ |m| := Int.one_le_abs hm0
    exact_mod_cast this
  rw [abs_mul, abs_of_pos (a := (2 : K) ^ k) (two_zpow_pos k)]
  simp only [binary32] at hk
  calc (2 : K) ^ (-149 : Int) ≤ (2 : K) ^ k := two_zpow_le (by omega)
    _ = 1 * (2 : K) ^ k := (one_mul _).symm
    _ ≤ |(m : K)| * (2 : K) ^ k := mul_le_mul_of_nonneg_right h1 (le_of_lt (two_zpow_pos k))

/-! ## The threshold under IEEE 754 -/

theorem rep64_one : binary64.Rep (1 : ℝ) := ⟨1, 0, by norm_num, by decide, by decide⟩

theorem rep64_two_zpow (k : Int) (hk : -1074 ≤ k) : binary64.Rep ((2 : ℝ) ^ k) :=
  ⟨1, k, by norm_num, by decide, by simp only [binary64]; omega⟩

theorem rep32_two_zpow (k : Int) (hk : -149 ≤ k) : binary32.Rep ((2 : ℝ) ^ k) :=
  ⟨1, k, by norm_num, by decide, by simp only [binary32]; omega⟩

/-- A small `int` converts to `float` exactly. -/
theorem round32_intCast (n : Int) (hn : |n| < 2 ^ 24) :
    binary32.round ((n : Int) : ℝ) = .fin (n : ℝ) := by
  apply binary32.round_of_rep ⟨n, 0, by simp, hn, by decide⟩
  have h1 : ((|n| : Int) : ℝ) < ((2 ^ 24 : Int) : ℝ) := by exact_mod_cast hn
  simp only [binary32]
  push_cast at h1
  norm_num at h1 ⊢
  linarith

/-- The product `5 * sigma_s` in `float` is off by at most `2 ^ (-24)` of its value. -/
theorem five_mul_err {s : ℝ} (hs : binary32.Rep s) :
    |binary32.rnd (5 * s) - 5 * s| ≤ (2 : ℝ) ^ (-24 : Int) * |5 * s| := by
  by_cases h0 : 5 * s = 0
  · rw [h0, Fmt.rnd_zero]
    simp
  by_cases hn : binary32.emin ≤ Int.log 2 |5 * s|
  · exact binary32.rnd_rel_err h0 hn
  · have hlt : |5 * s| < (2 : ℝ) ^ (-126 : Int) := by
      have h1 := lt_two_zpow_log |5 * s|
      have h2 : Int.log 2 |5 * s| + 1 ≤ -126 := by
        simp only [binary32] at hn
        omega
      exact lt_of_lt_of_le h1 (two_zpow_le h2)
    obtain ⟨m, k, hx, hm, hk⟩ := hs
    simp only [binary32] at hk
    have hrep : binary32.Rep (5 * s) := by
      refine ⟨5 * m, k, by rw [hx]; push_cast; ring, ?_, by simp only [binary32]; omega⟩
      have h3 : |(5 * m : ℝ)| * (2 : ℝ) ^ k < (2 : ℝ) ^ (-126 : Int) := by
        rw [hx] at hlt
        have : |5 * ((m : ℝ) * (2 : ℝ) ^ k)| = |(5 * m : ℝ)| * (2 : ℝ) ^ k := by
          rw [← mul_assoc, abs_mul, abs_of_pos (a := (2 : ℝ) ^ k) (two_zpow_pos k)]
        rwa [this] at hlt
      have h4 : (2 : ℝ) ^ (-149 : Int) ≤ (2 : ℝ) ^ k := two_zpow_le (by omega)
      have h5 : |(5 * m : ℝ)| * (2 : ℝ) ^ (-149 : Int) < (2 : ℝ) ^ (-126 : Int) :=
        lt_of_le_of_lt (mul_le_mul_of_nonneg_left h4 (abs_nonneg _)) h3
      have h6 : |(5 * m : ℝ)| < 2 ^ 23 := by
        have e : (2 : ℝ) ^ (-126 : Int) = 2 ^ 23 * (2 : ℝ) ^ (-149 : Int) := by
          rw [← zpow_natCast, ← zpow_add₀ (by norm_num : (2 : ℝ) ≠ 0)]
          norm_num
        rw [e] at h5
        exact lt_of_mul_lt_mul_right h5 (le_of_lt (two_zpow_pos _))
      have h7 : ((|5 * m| : Int) : ℝ) < ((2 ^ 23 : Int) : ℝ) := by
        push_cast
        norm_num at h6 ⊢
        exact h6
      have h8 : |5 * m| < (2 : Int) ^ 23 := by exact_mod_cast h7
      simp only [binary32]
      calc |5 * m| < (2 : Int) ^ 23 := h8
        _ ≤ 2 ^ 24 := by norm_num
    rw [binary32.rnd_of_rep hrep]
    simp
    positivity

/-- The datum `sigma_m = 5 * sigma_s` the source computes in `float`. -/
theorem imulf_five (ln : ℝ → ℝ) (s : ℝ) :
    (ieeeArith ln).imulf 5 (.fin s) = binary32.round (5 * s) := by
  show Fl.mul binary32 (binary32.round ((5 : Int) : ℝ)) (.fin s) = _
  rw [round32_intCast 5 (by decide)]
  simp [Fl.mul]

/-- For `theta >= 1/5 + 2^(-26)` the argument of `log` the source computes is at least 1
(or `+inf`), whatever the `float` `sigma_s`. -/
theorem log_arg_atLeast_one (ln : ℝ → ℝ) {t s : ℝ} (ht : 1 / 5 + (2 : ℝ) ^ (-26 : Int) ≤ t)
    (hs : s ≠ 0) (hrep : binary32.Rep s) :
    Fl.AtLeast 1 ((ieeeArith ln).div ((ieeeArith ln).mul (.fin t) ((ieeeArith ln).imulf 5 (.fin s)))
      (.fin s)) := by
  rw [imulf_five]
  show Fl.AtLeast 1 (Fl.div binary64 (Fl.mul binary64 (.fin t) (binary32.round (5 * s))) (.fin s))
  have herr := five_mul_err hrep
  have ht0 : 0 < t := lt_of_lt_of_le (by positivity) ht
  have h26 : (2 : ℝ) ^ (-26 : Int) = 1 / 67108864 := by norm_num
  have h24 : (2 : ℝ) ^ (-24 : Int) = 1 / 16777216 := by norm_num
  rw [h24] at herr
  rw [h26] at ht
  have hr64 := rep64_of_rep32 hrep
  rcases lt_or_gt_of_ne hs with hneg | hpos
  · -- sigma_s < 0
    rw [abs_of_neg (by linarith : 5 * s < 0), abs_le] at herr
    have hm : t * binary32.rnd (5 * s) ≤ s := by nlinarith [herr.1, herr.2]
    have hp : Fl.AtMost s (Fl.mul binary64 (.fin t) (binary32.round (5 * s))) := by
      unfold Fmt.round
      split_ifs with h1 h2
      · exfalso; linarith
      · simp only [Fl.mul, if_pos ht0]
        exact Or.inl rfl
      · simp only [Fl.mul]
        exact binary64.round_atMost prec64 hr64 (le_of_lt hneg) hm
    rcases hp with hp | ⟨p, hp, hps⟩
    · rw [hp]
      simp only [Fl.div, if_neg (not_le.mpr hneg)]
      exact Or.inl rfl
    · rw [hp]
      simp only [Fl.div, if_neg hs]
      apply binary64.round_atLeast prec64 rep64_one (by norm_num)
      rw [le_div_iff_of_neg hneg]
      linarith
  · -- sigma_s > 0
    rw [abs_of_pos (by linarith : 0 < 5 * s), abs_le] at herr
    have hm : s ≤ t * binary32.rnd (5 * s) := by nlinarith [herr.1, herr.2]
    have hp : Fl.AtLeast s (Fl.mul binary64 (.fin t) (binary32.round (5 * s))) := by
      unfold Fmt.round
      split_ifs with h1 h2
      · simp only [Fl.mul, if_pos ht0]
        exact Or.inl rfl
      · exfalso; linarith
      · simp only [Fl.mul]
        exact binary64.round_atLeast prec64 hr64 (le_of_lt hpos) hm
    rcases hp with hp | ⟨p, hp, hps⟩
    · rw [hp]
      simp only [Fl.div, if_pos (le_of_lt hpos)]
      exact Or.inl rfl
    · rw [hp]
      simp only [Fl.div, if_neg hs]
      apply binary64.round_atLeast prec64 rep64_one (by norm_num)
      rw [le_div_iff₀ hpos]
      linarith

/-! ## Claim C7: identical frames -/

theorem forLoop_fixed {σ : Type} (n : Nat) (body : Nat → σ → σ) (s : σ)
    (h : ∀ i, body i s = s) : forLoop n body s = s := by
  induction n with
  | zero => rfl
  | succ n ih =>
    show body n (forLoop n body s) = s
    rw [ih, h]

theorem zeros_set_zero (rows cols i j : Nat) :
    (Mat.zeros rows cols).set i j 0 = Mat.zeros rows cols := by
  apply Mat.eq_of
  · rfl
  · rfl
  · intro r c
    unfold Mat.set Mat.zeros
    simp

theorem cm_zeros (rows cols : Nat) (row col N i j : Int) :
    cm (Mat.zeros rows cols) row col N i j = 0 := by
  unfold cm Mat.zeros
  simp

theorem get_neighbour_count_zeros_Qm (rows cols : Nat) (row col N : Int) :
    (get_neighbour_count (Mat.zeros rows cols) row col N).Qm = 0 := by
  rw [get_neighbour_count_eq]
  simp only [cm_zeros]
  rfl

theorem get_neighbour_count_Qs_nonneg (img : Mat) (row col N : Int) :
    0 ≤ (get_neighbour_count img row col N).Qs := by
  rw [get_neighbour_count_eq]
  have s := cs_nonneg img row col N
  simp only
  linarith [s (-1) (-1), s (-1) 0, s (-1) 1, s 0 (-1), s 0 0, s 0 1, s 1 (-1), s 1 0, s 1 1]

theorem fixed_value_eq {F : Type} (ar : Arith F) (md : motion_detection F) (i j : Nat)
    (G : Mat) :
    fixed_value ar md i j G =
      if ar.gt (ar.pow2u (G.get i j)) (fixed_thresh ar md) = true then 255 else 0 := rfl

theorem adaptive_value_eq {F : Type} (ar : Arith F) (md : motion_detection F) (N : Int)
    (D : Mat) (i j : Nat) (G : Mat) :
    adaptive_value ar md N D i j G =
      if ar.gt (ar.pow2u (D.get i j))
        (adaptive_thresh ar md
          ((get_neighbour_count G i j N).Qs - (get_neighbour_count G i j N).Qm)) = true
      then 255 else 0 := rfl

/-- On the all-zero grid the fixed sweep changes nothing when `0 > threshold` is false. -/
theorem fixed_sweep_zeros {F : Type} (ar : Arith F) (md : motion_detection F)
    (h : ar.gt (ar.pow2u 0) (fixed_thresh ar md) = false) (rows cols r c : Nat) :
    sweepPre (fixed_value ar md) c r (Mat.zeros rows cols) = Mat.zeros rows cols := by
  unfold sweepPre
  apply forLoop_fixed
  intro i
  unfold rowPre
  apply forLoop_fixed
  intro j
  have hv : fixed_value ar md i j (Mat.zeros rows cols) = 0 := by
    rw [fixed_value_eq]
    have : (Mat.zeros rows cols).get i j = 0 := rfl
    rw [this, h]
    rfl
  rw [hv, zeros_set_zero]

/-- On the all-zero grid with all-zero difference map the rounds change nothing when
`0 > thresh` is false for every neighbour difference `Qs - Qm >= 0`. -/
theorem rounds_zeros {F : Type} (ar : Arith F) (md : motion_detection F)
    (h : ∀ q : Int, 0 ≤ q → ar.gt (ar.pow2u 0) (adaptive_thresh ar md q) = false)
    (N : Int) (rows cols r c n : Nat) :
    rounds ar md N (Mat.zeros rows cols) r c n (Mat.zeros rows cols) = Mat.zeros rows cols := by
  unfold rounds
  apply forLoop_fixed
  intro _
  unfold adaptive_round
  apply forLoop_fixed
  intro i
  apply forLoop_fixed
  intro j
  have hv : adaptive_value ar md N (Mat.zeros rows cols) i j (Mat.zeros rows cols) = 0 := by
    rw [adaptive_value_eq, get_neighbour_count_zeros_Qm, sub_zero]
    have : (Mat.zeros rows cols).get i j = 0 := rfl
    rw [this, h _ (get_neighbour_count_Qs_nonneg _ _ _ _)]
    rfl
  rw [pixel_update_eq, hv, zeros_set_zero]

theorem Fl.gt_zero_of_leT {K : Type} [LinearOrderedField K] {v : Fl K}
    (h : Fl.leT (.fin 0) v) : Fl.gt (.fin 0) v = false := by
  cases v <;> simp_all [Fl.gt, Fl.leT]

theorem Fl.leT_zero_of_atLeast {K : Type} [LinearOrderedField K] {v : Fl K}
    (h : Fl.AtLeast 0 v) : Fl.leT (.fin 0) v := by
  rcases h with rfl | ⟨y, rfl, hy⟩
  · exact Fl.leT_pinf _
  · exact hy

theorem pow2u_zero (ln : ℝ → ℝ) : (ieeeArith ln).pow2u 0 = .fin 0 := by
  show binary64.round (((0 : Nat) : ℝ) ^ 2) = .fin 0
  have : (((0 : Nat) : ℝ) ^ 2) = 0 := by norm_num
  rw [this]
  exact binary64.round_of_rep binary64.rep_zero (by simp; positivity)

/-- The logarithm of a datum that is at least 1 is not negative. -/
theorem log_atLeast {a : Fl ℝ} (h : Fl.AtLeast 1 a) : Fl.AtLeast 0 (Fl.log Real.log a) := by
  rcases h with rfl | ⟨x, rfl, hx⟩
  · exact Or.inl rfl
  · simp only [Fl.log, if_neg (not_lt.mpr (by linarith : (0 : ℝ) ≤ x)),
      if_neg (by linarith : x ≠ 0)]
    exact binary64.round_atLeast prec64 binary64.rep_zero le_rfl (Real.log_nonneg hx)

/-- The factor `2.0 * pow(sigma_s, 2)` is positive for a non-zero `float` `sigma_s`. -/
theorem two_pow2_atLeast (ln : ℝ → ℝ) {s : ℝ} (hs : s ≠ 0) (hrep : binary32.Rep s) :
    Fl.AtLeast ((2 : ℝ) ^ (-297 : Int))
      ((ieeeArith ln).mul (ieeeArith ln).two ((ieeeArith ln).pow2 (.fin s))) := by
  show Fl.AtLeast _ (Fl.mul binary64 (.fin 2) (binary64.round (s ^ 2)))
  have h1 := rep32_abs_ge hrep hs
  have h2 : (2 : ℝ) ^ (-298 : Int) ≤ s ^ 2 := by
    have e : (2 : ℝ) ^ (-298 : Int) = ((2 : ℝ) ^ (-149 : Int)) ^ 2 := by
      rw [← zpow_natCast, ← zpow_mul]
      norm_num
    rw [e, ← sq_abs s]
    exact pow_le_pow_left₀ (le_of_lt (two_zpow_pos _)) h1 2
  rcases binary64.round_atLeast prec64 (rep64_two_zpow (-298) (by decide))
    (le_of_lt (two_zpow_pos _)) h2 with h | ⟨c, h, hc⟩
  · rw [h]
    simp only [Fl.mul]
    norm_num
    exact Or.inl rfl
  · rw [h]
    simp only [Fl.mul]
    apply binary64.round_atLeast prec64 (rep64_two_zpow (-297) (by decide))
      (le_of_lt (two_zpow_pos _))
    have e : (2 : ℝ) ^ (-297 : Int) = 2 * (2 : ℝ) ^ (-298 : Int) := by
      rw [show (-297 : Int) = -298 + 1 by norm_num, zpow_add_one₀ (by norm_num : (2 : ℝ) ≠ 0)]
      ring
    rw [e]
    linarith

/-- The product of a positive factor and a non-negative datum is not below zero as a
threshold. -/
theorem mul_leT_zero (f : Fmt) (hp : 1 ≤ f.prec) {c x : Fl ℝ} {c0 : ℝ} (hc0 : 0 < c0)
    (hc : Fl.AtLeast c0 c) (hx : Fl.AtLeast 0 x) : Fl.leT (.fin 0) (Fl.mul f c x) := by
  rcases hc with rfl | ⟨c1, rfl, hc1⟩
  · rcases hx with rfl | ⟨y, rfl, hy⟩
    · exact Fl.leT_pinf _
    · simp only [Fl.mul]
      split_ifs with h1 h2
      · exact Fl.leT_pinf _
      · exfalso; linarith
      · exact Fl.leT_nan _
  · have hpos : 0 < c1 := lt_of_lt_of_le hc0 hc1
    rcases hx with rfl | ⟨y, rfl, hy⟩
    · simp only [Fl.mul, if_pos hpos]
      exact Fl.leT_pinf _
    · simp only [Fl.mul]
      exact Fl.leT_zero_of_atLeast
        (f.round_atLeast hp f.rep_zero le_rfl (mul_nonneg (le_of_lt hpos) hy))

theorem add_atLeast_zero (f : Fmt) (hp : 1 ≤ f.prec) {a b : Fl ℝ} (ha : Fl.AtLeast 0 a)
    (hb : Fl.AtLeast 0 b) : Fl.AtLeast 0 (Fl.add f a b) := by
  rcases ha with rfl | ⟨x, rfl, hx⟩ <;> rcases hb with rfl | ⟨y, rfl, hy⟩
  · exact Or.inl rfl
  · exact Or.inl rfl
  · exact Or.inl rfl
  · simp only [Fl.add]
    exact f.round_atLeast hp f.rep_zero le_rfl (add_nonneg hx hy)

/-- The neighbour term `(Qs - Qm) / T` is not negative when `Qs - Qm >= 0` and `T > 0`. -/
theorem idivf_atLeast_zero (ln : ℝ → ℝ) {q : Int} (hq : 0 ≤ q) {τ : ℝ} (hτ : 0 < τ) :
    Fl.AtLeast 0 ((ieeeArith ln).idivf q (.fin τ)) := by
  show Fl.AtLeast 0 (Fl.div binary32 (binary32.round ((q : Int) : ℝ)) (.fin τ))
  rcases binary32.round_atLeast prec32 binary32.rep_zero le_rfl
    (by exact_mod_cast hq : (0 : ℝ) ≤ ((q : Int) : ℝ)) with h | ⟨y, h, hy⟩
  · rw [h]
    simp only [Fl.div, if_pos (le_of_lt hτ)]
    exact Or.inl rfl
  · rw [h]
    simp only [Fl.div, if_neg (ne_of_gt hτ)]
    exact binary32.round_atLeast prec32 binary32.rep_zero le_rfl (div_nonneg hy (le_of_lt hτ))

/-- C7 amended: under IEEE 754 arithmetic, for every frame A, every `float` sigma_s != 0, every
T > 0, every theta >= 1/5 + 2^(-26) (every `float` above the one nearest to 0.2) and every
iteration count, `abs_difference(A,A)`, `fixed_threshold(A,A)`, `variable_threshold1(A,A,n)` and
`variable_threshold2(A,A,n)` all return the all-zero grid of the size of A. -/
theorem identical_frames_empty_mask (t s τ : ℝ) (ht : 1 / 5 + (2 : ℝ) ^ (-26 : Int) ≤ t)
    (hs : s ≠ 0) (hrep : binary32.Rep s) (hτ : 0 < τ) (A : Mat) (iterations : Int) :
    abs_difference A A = .ok (Mat.zeros A.rows A.cols) ∧
    fixed_threshold (ieeeArith Real.log) ⟨.fin t, .fin s, .fin τ⟩ A A =
      .ok (Mat.zeros A.rows A.cols) ∧
    variable_threshold1 (ieeeArith Real.log) ⟨.fin t, .fin s, .fin τ⟩ A A iterations =
      .ok (Mat.zeros A.rows A.cols) ∧
    variable_threshold2 (ieeeArith Real.log) ⟨.fin t, .fin s, .fin τ⟩ A A iterations =
      .ok (Mat.zeros A.rows A.cols) := by
  have hL := log_atLeast (log_arg_atLeast_one Real.log ht hs hrep)
  have hc := two_pow2_atLeast Real.log hs hrep
  have hf : (ieeeArith Real.log).gt ((ieeeArith Real.log).pow2u 0)
      (fixed_thresh (ieeeArith Real.log) ⟨.fin t, .fin s, .fin τ⟩) = false := by
    rw [pow2u_zero]
    exact Fl.gt_zero_of_leT (mul_leT_zero binary64 prec64 (two_zpow_pos _) hc hL)
  have ha : ∀ q : Int, 0 ≤ q → (ieeeArith Real.log).gt ((ieeeArith Real.log).pow2u 0)
      (adaptive_thresh (ieeeArith Real.log) ⟨.fin t, .fin s, .fin τ⟩ q) = false := by
    intro q hq
    rw [pow2u_zero]
    exact Fl.gt_zero_of_leT (mul_leT_zero binary64 prec64 (two_zpow_pos _) hc
      (add_atLeast_zero binary64 prec64 hL (idivf_atLeast_zero Real.log hq hτ)))
  unfold variable_threshold1 variable_threshold2
  rw [abs_difference_ok A A rfl rfl, fixed_threshold_ok _ _ A A rfl rfl,
    variable_threshold_ok _ _ 4 A A iterations rfl rfl,
    variable_threshold_ok _ _ 8 A A iterations rfl rfl, absdiff_self,
    fixed_sweep_zeros _ _ hf, rounds_zeros _ _ ha, rounds_zeros _ _ ha]
  exact ⟨rfl, rfl, rfl, rfl⟩

/-! ## Negative thresholds -/

/-- The logarithm of a datum in `[0, 1 - e]` is at most `-e`. -/
theorem log_atMost_neg {a e : ℝ} (h0 : 0 ≤ a) (ha : a ≤ 1 - e) (he : 0 ≤ e)
    (hrep : binary64.Rep (-e)) : Fl.AtMost (-e) (Fl.log Real.log (.fin a)) := by
  simp only [Fl.log, if_neg (not_lt.mpr h0)]
  by_cases h : a = 0
  · rw [if_pos h]
    exact Or.inl rfl
  · rw [if_neg h]
    have hpos : 0 < a := lt_of_le_of_ne h0 (Ne.symm h)
    apply binary64.round_atMost prec64 hrep (by linarith)
    have := Real.log_le_sub_one_of_pos hpos
    linarith

/-- The product of a positive factor and a negative datum is negative. -/
theorem mul_atMost_neg (f : Fmt) (hp : 1 ≤ f.prec) {c l : Fl ℝ} {c0 e : ℝ} (hc0 : 0 < c0)
    (hc : Fl.AtLeast c0 c) (he : 0 < e) (hl : Fl.AtMost (-e) l) (hrep : f.Rep (-(c0 * e))) :
    Fl.AtMost (-(c0 * e)) (Fl.mul f c l) := by
  rcases hc with rfl | ⟨c1, rfl, hc1⟩
  · rcases hl with rfl | ⟨y, rfl, hy⟩
    · exact Or.inl rfl
    · simp only [Fl.mul, if_neg (by linarith : ¬ 0 < y), if_pos (by linarith : y < 0)]
      exact Or.inl rfl
  · have hpos : 0 < c1 := lt_of_lt_of_le hc0 hc1
    rcases hl with rfl | ⟨y, rfl, hy⟩
    · simp only [Fl.mul, if_pos hpos]
      exact Or.inl rfl
    · simp only [Fl.mul]
      apply f.round_atMost hp hrep (by nlinarith)
      nlinarith

theorem gt_of_atMost_neg {psi thr : Fl ℝ} {y : ℝ} (hpsi : Fl.AtLeast 0 psi)
    (hthr : Fl.AtMost y thr) (hy : y < 0) : Fl.gt psi thr = true := by
  rcases hpsi with rfl | ⟨p, rfl, hp⟩ <;> rcases hthr with rfl | ⟨z, rfl, hz⟩ <;>
    simp [Fl.gt]
  linarith

theorem pow2u_atLeast (ln : ℝ → ℝ) (d : Nat) : Fl.AtLeast 0 ((ieeeArith ln).pow2u d) := by
  show Fl.AtLeast 0 (binary64.round (((d : Nat) : ℝ) ^ 2))
  exact binary64.round_atLeast prec64 binary64.rep_zero le_rfl (by positivity)

/-- When `psi > threshold` holds for every cell value, the fixed sweep writes 255 everywhere. -/
theorem fixed_sweep_all_moving {F : Type} (ar : Arith F) (md : motion_detection F)
    (h : ∀ d : Nat, ar.gt (ar.pow2u d) (fixed_thresh ar md) = true) (rows cols : Nat) (D : Mat)
    (i j : Nat) (hi : i < rows) (hj : j < cols) :
    (sweepPre (fixed_value ar md) cols rows D).data i j = 255 := by
  rw [fixed_sweep_data, if_pos ⟨hi, hj⟩, fixed_value_eq, h]
  rfl

/-! ## The parameters theta = 0.2f, sigma_s = 1.1f -/

/-- The `float` nearest to 1.1 is 9227469 / 2^23. -/
theorem round32_eleven_tenths :
    binary32.round (11 / 10 : ℝ) = .fin (9227469 / 8388608) := by
  have h := binary32.round_eq_of_pos (11 / 10 : ℝ) 0 9227469 (by norm_num) (by norm_num)
    (by decide) (by simp only [binary32]; norm_num) (by simp only [binary32]; norm_num)
    (by decide) (by simp only [binary32]; norm_num)
  rw [h]
  simp only [binary32]
  norm_num

/-- In `float`, `5 * 1.1f` is 5.5 (the exact product 5.50000011920929 is rounded down). -/
theorem five_mul_sigma_eq :
    binary32.round (5 * (9227469 / 8388608) : ℝ) = .fin (11 / 2) := by
  have h := binary32.round_eq_of_pos (5 * (9227469 / 8388608) : ℝ) 2 11534336 (by norm_num)
    (by norm_num) (by decide) (by simp only [binary32]; norm_num)
    (by simp only [binary32]; norm_num) (by decide) (by simp only [binary32]; norm_num)
  rw [h]
  simp only [binary32]
  norm_num

/-- With theta = 0.2f, sigma_s = 1.1f the argument of `log` is below 1. -/
theorem rounding_log_arg (ln : ℝ → ℝ) (T : Fl ℝ) :
    ∃ a : ℝ, (ieeeArith ln).div ((ieeeArith ln).mul (roundingParams T).theta
        ((ieeeArith ln).imulf 5 (roundingParams T).sigma_s)) (roundingParams T).sigma_s =
        .fin a ∧
      0 ≤ a ∧ a ≤ 1 - (2 : ℝ) ^ (-28 : Int) := by
  simp only [roundingParams]
  rw [imulf_five, five_mul_sigma_eq]
  show ∃ a : ℝ, Fl.div binary64 (Fl.mul binary64 (.fin (13421773 / 67108864)) (.fin (11 / 2)))
    (.fin (9227469 / 8388608)) = .fin a ∧ _
  have hp : binary64.round ((13421773 / 67108864 : ℝ) * (11 / 2)) =
      .fin (13421773 / 67108864 * (11 / 2)) := by
    apply binary64.round_of_rep ⟨147639503, -27, by norm_num, by decide, by decide⟩
    simp only [binary64]
    rw [abs_of_pos (by norm_num)]
    norm_num
  simp only [Fl.mul, hp, Fl.div]
  rw [if_neg (by norm_num)]
  obtain ⟨y, hy, h1, h2⟩ := binary64.round_bounded prec64 (x := (13421773 / 67108864 : ℝ) *
      (11 / 2) / (9227469 / 8388608)) binary64.rep_zero
    (⟨268435455, -28, by norm_num, by decide, by decide⟩ :
      binary64.Rep (1 - (2 : ℝ) ^ (-28 : Int)))
    (by simp only [binary64]; norm_num) (by simp only [binary64]; norm_num)
    (by norm_num) (by norm_num)
  exact ⟨y, hy, h1, h2⟩

/-- With theta = 0.2f, sigma_s = 1.1f the fixed threshold the source computes is negative. -/
theorem rounding_fixed_thresh_neg (T : Fl ℝ) :
    Fl.AtMost (-((2 : ℝ) ^ (-297 : Int) * (2 : ℝ) ^ (-28 : Int)))
      (fixed_thresh (ieeeArith Real.log) (roundingParams T)) := by
  obtain ⟨a, ha, h0, h1⟩ := rounding_log_arg Real.log T
  have hs : (9227469 / 8388608 : ℝ) ≠ 0 := by norm_num
  have hrep : binary32.Rep (9227469 / 8388608 : ℝ) :=
    ⟨9227469, -23, by norm_num, by decide, by decide⟩
  have hc := two_pow2_atLeast Real.log hs hrep
  have hL := log_atMost_neg h0 h1 (le_of_lt (two_zpow_pos _))
    (rep64_two_zpow (-28) (by decide)).neg
  unfold fixed_thresh
  rw [ha]
  apply mul_atMost_neg binary64 prec64 (two_zpow_pos _) hc (two_zpow_pos _) hL
  have e : (2 : ℝ) ^ (-297 : Int) * (2 : ℝ) ^ (-28 : Int) = (2 : ℝ) ^ (-325 : Int) := by
    rw [← zpow_add₀ (by norm_num : (2 : ℝ) ≠ 0)]
    norm_num
  rw [e]
  exact (rep64_two_zpow (-325) (by decide)).neg

/-- C7 as stated fails under IEEE 754 arithmetic: theta = 0.2f (the `float` nearest to 0.2,
which is above 1/5), sigma_s = 1.1f, T = 2 satisfy the claim's hypotheses, yet on two identical
4x4 frames of constant value 100 `fixed_threshold` returns the all-255 mask: `5 * sigma_s`
rounds to 5.5 in `float`, the argument of `log` falls below 1 and the threshold is negative. -/
theorem identical_frames_mask_not_empty :
    binary32.round (1 / 5 : ℝ) = .fin (13421773 / 67108864) ∧
    binary32.round (11 / 10 : ℝ) = .fin (9227469 / 8388608) ∧
    (1 / 5 : ℝ) ≤ 13421773 / 67108864 ∧ (9227469 / 8388608 : ℝ) ≠ 0 ∧ (0 : ℝ) < 2 ∧
    ∃ R, fixed_threshold (ieeeArith Real.log) (roundingParams (.fin 2)) (constFrame 4 4 100)
        (constFrame 4 4 100) = .ok R ∧
      ∀ i j, i < 4 → j < 4 → R.get i j = 255 := by
  refine ⟨round32_one_fifth, round32_eleven_tenths, by norm_num, by norm_num, by norm_num, _,
    fixed_threshold_ok _ _ _ _ rfl rfl, ?_⟩
  intro i j hi hj
  apply fixed_sweep_all_moving _ _ _ _ _ _ i j hi hj
  intro d
  exact gt_of_atMost_neg (pow2u_atLeast Real.log d) (rounding_fixed_thresh_neg _)
    (by
      have := mul_pos (two_zpow_pos (K := ℝ) (-297)) (two_zpow_pos (K := ℝ) (-28))
      linarith)

/-! ## Claim C15: a prior factor below 1/5 -/

/-- Rounding between two numbers of the format gives the finite rounded value. -/
theorem Fmt.round_bounded_rnd {K : Type} [LinearOrderedField K] [FloorRing K] (f : Fmt)
    (hp : 1 ≤ f.prec) {lo hi x : K} (hlo : f.Rep lo) (hhi : f.Rep hi)
    (blo : -(2 : K) ^ (f.emax + 1) < lo) (bhi : hi < (2 : K) ^ (f.emax + 1))
    (h1 : lo ≤ x) (h2 : x ≤ hi) :
    f.round x = .fin (f.rnd x) ∧ lo ≤ f.rnd x ∧ f.rnd x ≤ hi := by
  have a1 : lo ≤ f.rnd x := by
    have := f.rnd_mono hp h1
    rwa [f.rnd_of_rep hlo] at this
  have a2 : f.rnd x ≤ hi := by
    have := f.rnd_mono hp h2
    rwa [f.rnd_of_rep hhi] at this
  refine ⟨f.round_of_lt ?_, a1, a2⟩
  rw [abs_lt]
  constructor <;> linarith

/-- Every `float` below 1/5 is at most `(1 - 2^(-24)) / 5`, the `float` just below 0.2f. -/
theorem float_lt_one_fifth {t : ℝ} (hrep : binary32.Rep t) (ht : t < 1 / 5) :
    5 * t ≤ 1 - (2 : ℝ) ^ (-24 : Int) := by
  have h24 : (2 : ℝ) ^ (-24 : Int) = 1 / 16777216 := by norm_num
  rw [h24]
  by_contra hcon
  have hlo : (13421772 : ℝ) / 67108864 < t := by
    have := not_le.mp hcon
    linarith
  obtain ⟨m, k, hx, hm, hk⟩ := hrep
  simp only [binary32] at hm hk
  have hmR : (m : ℝ) < 16777216 := by
    have : m < 2 ^ 24 := lt_of_le_of_lt (le_abs_self m) hm
    have : (m : ℝ) < ((2 ^ 24 : Int) : ℝ) := by exact_mod_cast this
    norm_num at this
    exact this
  rcases le_or_lt (-26) k with hk26 | hk26
  · obtain ⟨n, hn⟩ : ∃ n : Nat, k = -26 + n := ⟨(k + 26).toNat, by omega⟩
    have e : t * 67108864 = ((m * 2 ^ n : Int) : ℝ) := by
      rw [hx, hn, zpow_add₀ (by norm_num : (2 : ℝ) ≠ 0), zpow_natCast]
      push_cast
      have : (2 : ℝ) ^ (-26 : Int) = 1 / 67108864 := by norm_num
      rw [this]
      ring
    have h1 : ((13421772 : Int) : ℝ) < ((m * 2 ^ n : Int) : ℝ) := by
      rw [← e]
      push_cast
      linarith
    have h2 : ((m * 2 ^ n : Int) : ℝ) < ((13421773 : Int) : ℝ) := by
      rw [← e]
      push_cast
      linarith
    have h3 : (13421772 : Int) < m * 2 ^ n := by exact_mod_cast h1
    have h4 : m * 2 ^ n < (13421773 : Int) := by exact_mod_cast h2
    omega
  · have h27 : (2 : ℝ) ^ k ≤ (2 : ℝ) ^ (-27 : Int) := two_zpow_le (by omega)
    have e27 : (2 : ℝ) ^ (-27 : Int) = 1 / 134217728 := by norm_num
    rw [e27] at h27
    have hpos := two_zpow_pos (K := ℝ) k
    have hmpos : 0 < (m : ℝ) := by
      by_contra hc
      have : (m : ℝ) * (2 : ℝ) ^ k ≤ 0 :=
        mul_nonpos_of_nonpos_of_nonneg (not_lt.mp hc) (le_of_lt hpos)
      linarith
    have : (m : ℝ) * (2 : ℝ) ^ k ≤ (m : ℝ) * (1 / 134217728) :=
      mul_le_mul_of_nonneg_left h27 (le_of_lt hmpos)
    linarith

/-- For a `float` theta in (0, 1/5) and a `float` sigma_s whose product by 5 does not overflow,
the argument of `log` the source computes is a finite number in `[0, 1 - 2^(-48)]`. -/
theorem log_arg_lt_one (ln : ℝ → ℝ) {t s : ℝ} (ht0 : 0 < t)
    (ht : 5 * t ≤ 1 - (2 : ℝ) ^ (-24 : Int)) (htr : binary32.Rep t) (hs : s ≠ 0)
    (hrep : binary32.Rep s) (hb : |s| < (2 : ℝ) ^ (125 : Int)) :
    ∃ a : ℝ, (ieeeArith ln).div ((ieeeArith ln).mul (.fin t) ((ieeeArith ln).imulf 5 (.fin s)))
        (.fin s) = .fin a ∧ 0 ≤ a ∧ a ≤ 1 - (2 : ℝ) ^ (-48 : Int) := by
  rw [imulf_five]
  show ∃ a : ℝ, Fl.div binary64 (Fl.mul binary64 (.fin t) (binary32.round (5 * s))) (.fin s) =
    .fin a ∧ _
  have herr := five_mul_err hrep
  have h24 : (2 : ℝ) ^ (-24 : Int) = 1 / 16777216 := by norm_num
  have h48 : (2 : ℝ) ^ (-48 : Int) = 1 / 281474976710656 := by norm_num
  have h125 : (2 : ℝ) ^ (125 : Int) = 42535295865117307932921825928971026432 := by norm_num
  rw [h24] at herr ht
  rw [h125] at hb
  rw [abs_lt] at hb
  -- `5 * sigma_s` stays finite
  obtain ⟨hm, hm1, hm2⟩ := binary32.round_bounded_rnd prec32 (x := 5 * s)
    (⟨-3, 126, rfl, by decide, by decide⟩ : binary32.Rep (((-3 : Int) : ℝ) * (2 : ℝ) ^ (126 : Int)))
    (⟨3, 126, rfl, by decide, by decide⟩ : binary32.Rep (((3 : Int) : ℝ) * (2 : ℝ) ^ (126 : Int)))
    (by simp only [binary32]; norm_num) (by simp only [binary32]; norm_num)
    (by norm_num; linarith [hb.1]) (by norm_num; linarith [hb.2])
  norm_num at hm1 hm2
  rw [hm]
  -- the product by theta is exact in `double`
  have hp : binary64.round (t * binary32.rnd (5 * s)) = .fin (t * binary32.rnd (5 * s)) := by
    apply binary64.round_of_rep (rep64_mul htr (binary32.rep_rnd prec32 _))
    simp only [binary64]
    rw [abs_mul, abs_of_pos ht0]
    have h1 : |binary32.rnd (5 * s)| ≤ 255211775190703847597530955573826158592 := by
      rw [abs_le]
      constructor <;> linarith
    have h2 : t ≤ 1 := by linarith
    calc t * |binary32.rnd (5 * s)| ≤ 1 * 255211775190703847597530955573826158592 :=
          mul_le_mul h2 h1 (abs_nonneg _) (by norm_num)
      _ < (2 : ℝ) ^ ((1023 : Int) + 1) := by norm_num
  simp only [Fl.mul, hp, Fl.div, if_neg hs]
  rw [h48]
  have hrange : 0 ≤ t * binary32.rnd (5 * s) / s ∧
      t * binary32.rnd (5 * s) / s ≤ 1 - 1 / 281474976710656 := by
    rcases lt_or_gt_of_ne hs with hneg | hpos
    · rw [abs_of_neg (by linarith : 5 * s < 0), abs_le] at herr
      constructor
      · apply div_nonneg_of_nonpos _ (le_of_lt hneg)
        nlinarith [herr.1, herr.2]
      · rw [div_le_iff_of_neg hneg]
        nlinarith [herr.1, herr.2]
    · rw [abs_of_pos (by linarith : 0 < 5 * s), abs_le] at herr
      constructor
      · apply div_nonneg _ (le_of_lt hpos)
        nlinarith [herr.1, herr.2]
      · rw [div_le_iff₀ hpos]
        nlinarith [herr.1, herr.2]
  obtain ⟨y, hy, h1, h2⟩ := binary64.round_bounded prec64 binary64.rep_zero
    (⟨281474976710655, -48, by norm_num, by decide, by decide⟩ :
      binary64.Rep (1 - 1 / 281474976710656 : ℝ))
    (by simp only [binary64]; norm_num) (by simp only [binary64]; norm_num)
    hrange.1 hrange.2
  exact ⟨y, hy, h1, h2⟩

/-- C15 amended: under IEEE 754 arithmetic, for every `float` theta with 0 < theta < 1/5, every
`float` sigma_s != 0 with |sigma_s| < 2^125 (so that `5 * sigma_s` does not overflow), every `T`
and every pair of equal-dimension frames, every cell of `fixed_threshold(A,B)` is 255: the
threshold the source computes is negative. -/
theorem fixed_threshold_all_moving (t s : ℝ) (T : Fl ℝ) (ht0 : 0 < t) (ht : t < 1 / 5)
    (htr : binary32.Rep t) (hs : s ≠ 0) (hrep : binary32.Rep s)
    (hb : |s| < (2 : ℝ) ^ (125 : Int)) (A B : Mat) (hr : A.rows = B.rows)
    (hc : A.cols = B.cols) :
    Fl.AtMost (-((2 : ℝ) ^ (-297 : Int) * (2 : ℝ) ^ (-48 : Int)))
      (fixed_thresh (ieeeArith Real.log) ⟨.fin t, .fin s, T⟩) ∧
    ∃ R, fixed_threshold (ieeeArith Real.log) ⟨.fin t, .fin s, T⟩ A B = .ok R ∧
      ∀ i j, i < A.rows → j < A.cols → R.get i j = 255 := by
  obtain ⟨a, ha, h0, h1⟩ := log_arg_lt_one Real.log ht0 (float_lt_one_fifth htr ht) htr hs hrep hb
  have hc2 := two_pow2_atLeast Real.log hs hrep
  have hL := log_atMost_neg h0 h1 (le_of_lt (two_zpow_pos _))
    (rep64_two_zpow (-48) (by decide)).neg
  have hthr : Fl.AtMost (-((2 : ℝ) ^ (-297 : Int) * (2 : ℝ) ^ (-48 : Int)))
      (fixed_thresh (ieeeArith Real.log) ⟨.fin t, .fin s, T⟩) := by
    unfold fixed_thresh
    rw [ha]
    apply mul_atMost_neg binary64 prec64 (two_zpow_pos _) hc2 (two_zpow_pos _) hL
    have e : (2 : ℝ) ^ (-297 : Int) * (2 : ℝ) ^ (-48 : Int) = (2 : ℝ) ^ (-345 : Int) := by
      rw [← zpow_add₀ (by norm_num : (2 : ℝ) ≠ 0)]
      norm_num
    rw [e]
    exact (rep64_two_zpow (-345) (by decide)).neg
  refine ⟨hthr, _, fixed_threshold_ok _ _ A B hr hc, ?_⟩
  intro i j hi hj
  apply fixed_sweep_all_moving _ _ _ _ _ _ i j hi hj
  intro d
  exact gt_of_atMost_neg (pow2u_atLeast Real.log d) hthr
    (by
      have := mul_pos (two_zpow_pos (K := ℝ) (-297)) (two_zpow_pos (K := ℝ) (-48))
      linarith)

/-- When `psi > threshold` holds for no cell value, the fixed sweep writes 0 everywhere. -/
theorem fixed_sweep_none_moving {F : Type} (ar : Arith F) (md : motion_detection F)
    (h : ∀ d : Nat, ar.gt (ar.pow2u d) (fixed_thresh ar md) = false) (rows cols : Nat) (D : Mat)
    (i j : Nat) (hi : i < rows) (hj : j < cols) :
    (sweepPre (fixed_value ar md) cols rows D).data i j = 0 := by
  rw [fixed_sweep_data, if_pos ⟨hi, hj⟩, fixed_value_eq, h]
  rfl

theorem Fl.gt_pinf {K : Type} [LinearOrderedField K] (psi : Fl K) : Fl.gt psi .pinf = false := by
  cases psi <;> simp [Fl.gt]

/-- In `float`, `5 * 2^126` overflows to `+inf`. -/
theorem five_mul_overflow : binary32.round (5 * (2 : ℝ) ^ (126 : Int)) = .pinf := by
  have h1 : (2 : ℝ) ^ (128 : Int) ≤ binary32.rnd (5 * (2 : ℝ) ^ (126 : Int)) := by
    have := binary32.rnd_mono prec32 (x := (2 : ℝ) ^ (128 : Int))
      (y := 5 * (2 : ℝ) ^ (126 : Int)) (by norm_num)
    rwa [binary32.rnd_of_rep (rep32_two_zpow 128 (by decide))] at this
  unfold Fmt.round
  rw [if_pos, if_pos (by positivity)]
  simp only [binary32]
  exact le_trans (by norm_num) (le_trans h1 (le_abs_self _))

/-- With theta = 0.125f and sigma_s = 2^126 the threshold of `fixed_threshold` is `+inf`. -/
theorem overflow_fixed_thresh (T : Fl ℝ) :
    fixed_thresh (ieeeArith Real.log) (overflowParams T) = .pinf := by
  have hrep : binary32.Rep ((2 : ℝ) ^ (126 : Int)) := rep32_two_zpow 126 (by decide)
  unfold fixed_thresh
  simp only [overflowParams]
  rw [imulf_five, five_mul_overflow]
  have hc := two_pow2_atLeast Real.log (s := (2 : ℝ) ^ (126 : Int)) (by positivity) hrep
  have h1 : (ieeeArith Real.log).log ((ieeeArith Real.log).div
      ((ieeeArith Real.log).mul (.fin (1 / 8)) .pinf) (.fin ((2 : ℝ) ^ (126 : Int)))) =
      .pinf := by
    show Fl.log Real.log (Fl.div binary64 (Fl.mul binary64 (.fin (1 / 8)) .pinf)
      (.fin ((2 : ℝ) ^ (126 : Int)))) = .pinf
    simp only [Fl.mul, if_pos (by norm_num : (0 : ℝ) < 1 / 8), Fl.div,
      if_pos (le_of_lt (two_zpow_pos (K := ℝ) 126)), Fl.log]
  rw [h1]
  rcases hc with hc | ⟨c, hc, hcp⟩
  · rw [hc]
    rfl
  · rw [hc]
    show Fl.mul binary64 (.fin c) .pinf = .pinf
    simp only [Fl.mul, if_pos (lt_of_lt_of_le (two_zpow_pos (K := ℝ) (-297)) hcp)]

/-- With theta = 0.125f and sigma_s = 2^126 every cell `fixed_threshold` visits is 0. -/
theorem overflow_fixed_cell (T : Fl ℝ) (rows cols : Nat) (D : Mat) (i j : Nat) (hi : i < rows)
    (hj : j < cols) :
    (sweepPre (fixed_value (ieeeArith Real.log) (overflowParams T)) cols rows D).data i j =
      0 := by
  apply fixed_sweep_none_moving _ _ _ _ _ _ i j hi hj
  intro d
  rw [overflow_fixed_thresh]
  exact Fl.gt_pinf _

/-- C15 as stated fails under IEEE 754 arithmetic: theta = 1/8 (below 1/5) and sigma_s = 2^126
are `float`s, yet `fixed_threshold` on the 1x1 frames `[0]` and `[255]` returns `[0]`: the `float`
product `5 * sigma_s` overflows to `+inf`, so the threshold is `+inf`. -/
theorem fixed_threshold_not_all_moving :
    (0 : ℝ) < 1 / 8 ∧ (1 / 8 : ℝ) < 1 / 5 ∧ (2 : ℝ) ^ (126 : Int) ≠ 0 ∧
    binary32.round (1 / 8 : ℝ) = .fin (1 / 8) ∧
    binary32.round ((2 : ℝ) ^ (126 : Int)) = .fin ((2 : ℝ) ^ (126 : Int)) ∧
    fixed_thresh (ieeeArith Real.log) (overflowParams (.fin 2)) = .pinf ∧
    ∃ R, fixed_threshold (ieeeArith Real.log) (overflowParams (.fin 2))
        (constFrame 1 1 0) (constFrame 1 1 255) = .ok R ∧
      R.get 0 0 = 0 := by
  refine ⟨by norm_num, by norm_num, by positivity, ?_, ?_, overflow_fixed_thresh _, _,
    fixed_threshold_ok _ _ _ _ rfl rfl, ?_⟩
  · apply binary32.round_of_rep ⟨1, -3, by norm_num, by decide, by decide⟩
    simp only [binary32]
    rw [abs_of_pos (by norm_num)]
    norm_num
  · apply binary32.round_of_rep (rep32_two_zpow 126 (by decide))
    simp only [binary32]
    rw [abs_of_pos (by positivity)]
    norm_num
  · exact overflow_fixed_cell _ 1 1 _ 0 0 (by decide) (by decide)

/-! ## Claim C13: the adaptive threshold as a function of the neighbour difference -/

theorem adaptive_round_single {F : Type} (ar : Arith F) (md : motion_detection F) (N : Int)
    (D M : Mat) :
    (adaptive_round ar md N D 1 1 M).get 0 0 = adaptive_value ar md N D 0 0 M := by
  simp only [adaptive_round, forLoop, pixel_update_eq]
  simp [Mat.set, Mat.get]

/-- With theta = 0.2f and sigma_s = 1.1f the adaptive threshold at `Qs - Qm = 0` is negative for
every finite T > 0. -/
theorem rounding_adaptive_thresh_neg {τ : ℝ} (hτ : 0 < τ) :
    Fl.AtMost (-((2 : ℝ) ^ (-297 : Int) * (2 : ℝ) ^ (-28 : Int)))
      (adaptive_thresh (ieeeArith Real.log) (roundingParams (.fin τ)) 0) := by
  obtain ⟨a, ha, h0, h1⟩ := rounding_log_arg Real.log (.fin τ)
  have hs : (9227469 / 8388608 : ℝ) ≠ 0 := by norm_num
  have hrep : binary32.Rep (9227469 / 8388608 : ℝ) :=
    ⟨9227469, -23, by norm_num, by decide, by decide⟩
  have hc := two_pow2_atLeast Real.log hs hrep
  have hL := log_atMost_neg h0 h1 (le_of_lt (two_zpow_pos _))
    (rep64_two_zpow (-28) (by decide)).neg
  have hq : (ieeeArith Real.log).idivf 0 (.fin τ) = .fin 0 := by
    show Fl.div binary32 (binary32.round (((0 : Int) : ℝ))) (.fin τ) = .fin 0
    rw [round32_intCast 0 (by decide)]
    simp only [Fl.div, if_neg (ne_of_gt hτ), Int.cast_zero, zero_div]
    exact binary32.round_of_rep binary32.rep_zero (by simp [two_zpow_pos])
  have hsum : Fl.AtMost (-(2 : ℝ) ^ (-28 : Int))
      (Fl.add binary64 (Fl.log Real.log (.fin a)) (.fin 0)) := by
    rcases hL with h | ⟨y, h, hy⟩
    · rw [h]
      exact Or.inl rfl
    · rw [h]
      simp only [Fl.add, add_zero]
      exact binary64.round_atMost prec64 (rep64_two_zpow (-28) (by decide)).neg
        (by linarith [two_zpow_pos (K := ℝ) (-28)]) hy
  unfold adaptive_thresh
  rw [ha]
  show Fl.AtMost _ (Fl.mul binary64 _ (Fl.add binary64 (Fl.log Real.log (.fin a))
    ((ieeeArith Real.log).idivf 0 (.fin τ))))
  rw [hq]
  apply mul_atMost_neg binary64 prec64 (two_zpow_pos _) hc (two_zpow_pos _) hsum
  have e : (2 : ℝ) ^ (-297 : Int) * (2 : ℝ) ^ (-28 : Int) = (2 : ℝ) ^ (-325 : Int) := by
    rw [← zpow_add₀ (by norm_num : (2 : ℝ) ≠ 0)]
    norm_num
  rw [e]
  exact (rep64_two_zpow (-325) (by decide)).neg

/-- With theta = 0.2f and sigma_s = 1.1f one round on a grid of one cell writes 255 as soon as
the neighbour counts are equal, whatever the difference value. -/
theorem rounding_round_cell {τ : ℝ} (hτ : 0 < τ) (N : Int) (D M : Mat)
    (hq : (get_neighbour_count M ((0 : Nat) : Int) ((0 : Nat) : Int) N).Qs -
      (get_neighbour_count M ((0 : Nat) : Int) ((0 : Nat) : Int) N).Qm = 0) :
    (adaptive_round (ieeeArith Real.log) (roundingParams (.fin τ)) N D 1 1 M).get 0 0 =
      255 := by
  rw [adaptive_round_single, adaptive_value_eq, hq, if_pos]
  exact gt_of_atMost_neg (pow2u_atLeast Real.log _) (rounding_adaptive_thresh_neg hτ)
    (by
      have := mul_pos (two_zpow_pos (K := ℝ) (-297)) (two_zpow_pos (K := ℝ) (-28))
      linarith)

/-- C1 as stated fails under IEEE 754 arithmetic, in both directions. With theta = 0.2f,
sigma_s = 1.1f and two identical 1x1 frames `[7]`, the squared difference 0 is not above the
real number `2*sigma_s^2*ln(theta*sigma_m/sigma_s)`, which is positive, yet the mask is 255 (the
computed threshold is negative, `5 * 1.1f` being rounded to 5.5). With theta = 0.125f,
sigma_s = 2^126 and the 1x1 frames `[0]` and `[255]`, the squared difference 65025 is above that
real number, which is negative, yet the mask is 0 (`5 * sigma_s` overflows in `float`). -/
theorem fixed_threshold_real_formula_fails :
    (¬ ((Int.natAbs (((constFrame 1 1 7).data 0 0 : Int) - ((constFrame 1 1 7).data 0 0 : Int)) :
          ℝ) ^ 2 >
        2 * (9227469 / 8388608 : ℝ) ^ 2 *
          Real.log (13421773 / 67108864 * (5 * (9227469 / 8388608)) / (9227469 / 8388608))) ∧
      ∃ R, fixed_threshold (ieeeArith Real.log) (roundingParams (.fin 2)) (constFrame 1 1 7)
          (constFrame 1 1 7) = .ok R ∧
        R.get 0 0 = 255) ∧
    ((Int.natAbs (((constFrame 1 1 255).data 0 0 : Int) - ((constFrame 1 1 0).data 0 0 : Int)) :
          ℝ) ^ 2 >
        2 * ((2 : ℝ) ^ (126 : Int)) ^ 2 *
          Real.log (1 / 8 * (5 * (2 : ℝ) ^ (126 : Int)) / (2 : ℝ) ^ (126 : Int)) ∧
      ∃ R, fixed_threshold (ieeeArith Real.log) (overflowParams (.fin 2)) (constFrame 1 1 0)
          (constFrame 1 1 255) = .ok R ∧
        R.get 0 0 = 0) := by
  refine ⟨⟨?_, _, fixed_threshold_ok _ _ _ _ rfl rfl, ?_⟩,
    ⟨?_, _, fixed_threshold_ok _ _ _ _ rfl rfl, ?_⟩⟩
  · have e : (13421773 / 67108864 * (5 * (9227469 / 8388608)) / (9227469 / 8388608) : ℝ) =
        67108865 / 67108864 := by norm_num
    rw [e]
    have h1 : 0 < Real.log (67108865 / 67108864) := Real.log_pos (by norm_num)
    have h2 : (0 : ℝ) < 2 * (9227469 / 8388608 : ℝ) ^ 2 := by norm_num
    have h3 := mul_pos h2 h1
    simp only [constFrame, sub_self, Int.natAbs_zero, Nat.cast_zero]
    norm_num
    linarith
  · apply fixed_sweep_all_moving _ _ _ _ _ _ 0 0 (by decide) (by decide)
    intro d
    exact gt_of_atMost_neg (pow2u_atLeast Real.log d) (rounding_fixed_thresh_neg _)
      (by
        have := mul_pos (two_zpow_pos (K := ℝ) (-297)) (two_zpow_pos (K := ℝ) (-28))
        linarith)
  · have e : (1 / 8 * (5 * (2 : ℝ) ^ (126 : Int)) / (2 : ℝ) ^ (126 : Int) : ℝ) = 5 / 8 := by
      have := ne_of_gt (two_zpow_pos (K := ℝ) 126)
      field_simp
      ring
    rw [e]
    have h1 : Real.log (5 / 8) < 0 := Real.log_neg (by norm_num) (by norm_num)
    have h2 : (0 : ℝ) < 2 * ((2 : ℝ) ^ (126 : Int)) ^ 2 := by positivity
    have h3 := mul_neg_of_pos_of_neg h2 h1
    have h4 : (0 : ℝ) ≤ ((Int.natAbs (((constFrame 1 1 255).data 0 0 : Int) -
        ((constFrame 1 1 0).data 0 0 : Int)) : ℝ)) ^ 2 := by positivity
    exact lt_of_lt_of_le h3 h4
  · exact overflow_fixed_cell _ 1 1 _ 0 0 (by decide) (by decide)

/-- C2 as stated fails under IEEE 754 arithmetic: with theta = 0.2f, sigma_s = 1.1f, T = 2, one
round of order 4 on the 1x1 difference map `[0]` and working mask `[0]` has Qs = Qm = 0 and
`D^2 = 0` is not above the real number `2*sigma_s^2*(ln(theta*sigma_m/sigma_s) + (Qs - Qm)/T)`,
which is positive, yet the round writes 255: the computed threshold is negative. -/
theorem adaptive_round_real_formula_fails :
    get_neighbour_count (Mat.zeros 1 1) 0 0 4 = ⟨0, 0⟩ ∧
    ¬ ((((Mat.zeros 1 1).get 0 0 : Nat) : ℝ) ^ 2 >
      2 * (9227469 / 8388608 : ℝ) ^ 2 *
        (Real.log (13421773 / 67108864 * (5 * (9227469 / 8388608)) / (9227469 / 8388608)) +
          (((0 : Int) - (0 : Int) : Int) : ℝ) / 2)) ∧
    (adaptive_round (ieeeArith Real.log) (roundingParams (.fin 2)) 4 (Mat.zeros 1 1) 1 1
      (Mat.zeros 1 1)).get 0 0 = 255 := by
  refine ⟨by decide, ?_, ?_⟩
  · have e : (13421773 / 67108864 * (5 * (9227469 / 8388608)) / (9227469 / 8388608) : ℝ) =
        67108865 / 67108864 := by norm_num
    rw [e]
    have h1 : 0 < Real.log (67108865 / 67108864) := Real.log_pos (by norm_num)
    have h2 : (0 : ℝ) < 2 * (9227469 / 8388608 : ℝ) ^ 2 := by norm_num
    have h3 := mul_pos h2 h1
    simp only [Mat.zeros, Mat.get, Nat.cast_zero, sub_self, Int.cast_zero, zero_div, add_zero]
    norm_num
    linarith
  · exact rounding_round_cell (by norm_num) 4 (Mat.zeros 1 1) (Mat.zeros 1 1) (by decide)

/-! ## Witnesses of C7, C12, C13, C15 -/

theorem rep32_one : binary32.Rep (1 : ℝ) := ⟨1, 0, by norm_num, by decide, by decide⟩

/-- The `float` nearest to 1.22 is 10234102 / 2^23. -/
theorem round32_demo_sigma :
    binary32.round (122 / 100 : ℝ) = .fin (10234102 / 8388608) := by
  have h := binary32.round_eq_of_pos (122 / 100 : ℝ) 0 10234102 (by norm_num) (by norm_num)
    (by decide) (by simp only [binary32]; norm_num) (by simp only [binary32]; norm_num)
    (by decide) (by simp only [binary32]; norm_num)
  rw [h]
  simp only [binary32]
  norm_num

theorem identical_frames_empty_mask_witness :
    abs_difference (constFrame 4 4 100) (constFrame 4 4 100) = .ok (Mat.zeros 4 4) ∧
    fixed_threshold (ieeeArith Real.log) ⟨.fin 1, .fin (10234102 / 8388608), .fin 2⟩
      (constFrame 4 4 100) (constFrame 4 4 100) = .ok (Mat.zeros 4 4) ∧
    variable_threshold1 (ieeeArith Real.log) ⟨.fin 1, .fin (10234102 / 8388608), .fin 2⟩
      (constFrame 4 4 100) (constFrame 4 4 100) 5 = .ok (Mat.zeros 4 4) ∧
    variable_threshold2 (ieeeArith Real.log) ⟨.fin 1, .fin (10234102 / 8388608), .fin 2⟩
      (constFrame 4 4 100) (constFrame 4 4 100) 5 = .ok (Mat.zeros 4 4) :=
  identical_frames_empty_mask 1 (10234102 / 8388608) 2 (by norm_num) (by norm_num)
    ⟨10234102, -23, by norm_num, by decide, by decide⟩ (by norm_num) (constFrame 4 4 100) 5

theorem fixed_threshold_all_moving_witness :
    Fl.AtMost (-((2 : ℝ) ^ (-297 : Int) * (2 : ℝ) ^ (-48 : Int)))
      (fixed_thresh (ieeeArith Real.log) ⟨.fin (1 / 8), .fin 1, .fin 2⟩) ∧
    ∃ R, fixed_threshold (ieeeArith Real.log) ⟨.fin (1 / 8), .fin 1, .fin 2⟩
        (constFrame 4 4 100) (constFrame 4 4 100) = .ok R ∧
      ∀ i j, i < (constFrame 4 4 100).rows → j < (constFrame 4 4 100).cols →
        R.get i j = 255 :=
  fixed_threshold_all_moving (1 / 8) 1 (.fin 2) (by norm_num) (by norm_num)
    ⟨1, -3, by norm_num, by decide, by decide⟩ one_ne_zero rep32_one
    (by rw [abs_one]; norm_num) (constFrame 4 4 100) (constFrame 4 4 100) rfl rfl

/-! ## Claim C10: the scenario under IEEE 754 -/

/-- With the parameters of `main1.cpp` stored in `float`s, the threshold `fixed_threshold`
computes under IEEE 754 is a finite number strictly between 4.79 and 4.80. -/
theorem demo_fixed_thresh_bounds :
    ∃ y : ℝ, fixed_thresh (ieeeArith Real.log) demoFloatParams = .fin y ∧
      479 / 100 < y ∧ y < 480 / 100 := by
  obtain ⟨l5, u5⟩ := log_five_bounds
  obtain ⟨y5, h5, a5, b5⟩ := binary32.round_bounded prec32
    (x := 5 * (10234102 / 8388608 : ℝ))
    (⟨12792627, -21, by norm_num, by decide, by decide⟩ :
      binary32.Rep (12792627 / 2097152 : ℝ))
    (⟨12792628, -21, by norm_num, by decide, by decide⟩ :
      binary32.Rep (12792628 / 2097152 : ℝ))
    (by simp only [binary32]; norm_num) (by simp only [binary32]; norm_num)
    (by norm_num) (by norm_num)
  obtain ⟨m, hm, am, bm⟩ := binary64.round_bounded prec64 (x := 1 * y5)
    (⟨12792627, -21, by norm_num, by decide, by decide⟩ :
      binary64.Rep (12792627 / 2097152 : ℝ))
    (⟨12792628, -21, by norm_num, by decide, by decide⟩ :
      binary64.Rep (12792628 / 2097152 : ℝ))
    (by simp only [binary64]; norm_num) (by simp only [binary64]; norm_num)
    (by linarith) (by linarith)
  have hs0 : ¬ ((10234102 / 8388608 : ℝ) = 0) := by norm_num
  obtain ⟨a, ha, aa, ba⟩ := binary64.round_bounded prec64
    (x := m / (10234102 / 8388608 : ℝ))
    (⟨5242879, -20, by norm_num, by decide, by decide⟩ :
      binary64.Rep (5242879 / 1048576 : ℝ))
    (⟨5242881, -20, by norm_num, by decide, by decide⟩ :
      binary64.Rep (5242881 / 1048576 : ℝ))
    (by simp only [binary64]; norm_num) (by simp only [binary64]; norm_num)
    (by rw [le_div_iff₀ (by norm_num)]; norm_num; linarith)
    (by rw [div_le_iff₀ (by norm_num)]; norm_num; linarith)
  have hapos : 0 < a := by linarith
  have hlog : Real.log a = Real.log 5 + Real.log (a / 5) := by
    rw [Real.log_div (ne_of_gt hapos) (by norm_num)]
    ring
  have hup : Real.log (a / 5) ≤ a / 5 - 1 := Real.log_le_sub_one_of_pos (by positivity)
  have hdn : 1 - (a / 5)⁻¹ ≤ Real.log (a / 5) := Real.one_sub_inv_le_log_of_pos (by positivity)
  have hinv : (a / 5)⁻¹ ≤ 1 + 1 / 4194304 := by
    rw [inv_div, div_le_iff₀ hapos]
    linarith
  obtain ⟨l, hl, al, bl⟩ := binary64.round_bounded prec64 (x := Real.log a)
    (⟨1687316, -20, by norm_num, by decide, by decide⟩ :
      binary64.Rep (1687316 / 1048576 : ℝ))
    (⟨1690756, -20, by norm_num, by decide, by decide⟩ :
      binary64.Rep (1690756 / 1048576 : ℝ))
    (by simp only [binary64]; norm_num) (by simp only [binary64]; norm_num)
    (by rw [hlog]; linarith) (by rw [hlog]; linarith)
  obtain ⟨q, hq, aq, bq⟩ := binary64.round_bounded prec64
    (x := (10234102 / 8388608 : ℝ) ^ 2)
    (⟨1560700, -20, by norm_num, by decide, by decide⟩ :
      binary64.Rep (1560700 / 1048576 : ℝ))
    (⟨1560701, -20, by norm_num, by decide, by decide⟩ :
      binary64.Rep (1560701 / 1048576 : ℝ))
    (by simp only [binary64]; norm_num) (by simp only [binary64]; norm_num)
    (by norm_num) (by norm_num)
  obtain ⟨c, hc, ac, bc⟩ := binary64.round_bounded prec64 (x := 2 * q)
    (⟨3121400, -20, by norm_num, by decide, by decide⟩ :
      binary64.Rep (3121400 / 1048576 : ℝ))
    (⟨3121402, -20, by norm_num, by decide, by decide⟩ :
      binary64.Rep (3121402 / 1048576 : ℝ))
    (by simp only [binary64]; norm_num) (by simp only [binary64]; norm_num)
    (by linarith) (by linarith)
  obtain ⟨y, hy, ay, bY⟩ := binary64.round_bounded prec64 (x := c * l)
    (⟨5022680, -20, by norm_num, by decide, by decide⟩ :
      binary64.Rep (5022680 / 1048576 : ℝ))
    (⟨5033164, -20, by norm_num, by decide, by decide⟩ :
      binary64.Rep (5033164 / 1048576 : ℝ))
    (by simp only [binary64]; norm_num) (by simp only [binary64]; norm_num)
    (by nlinarith) (by nlinarith)
  refine ⟨y, ?_, by linarith, by linarith⟩
  unfold fixed_thresh
  simp only [demoFloatParams]
  rw [imulf_five, h5]
  show Fl.mul binary64 (Fl.mul binary64 (.fin 2) (binary64.round ((10234102 / 8388608 : ℝ) ^ 2)))
    (Fl.log Real.log (Fl.div binary64 (Fl.mul binary64 (.fin 1) (.fin y5))
      (.fin (10234102 / 8388608)))) = .fin y
  simp only [Fl.mul, hm, Fl.div, if_neg hs0, ha, Fl.log, if_neg (not_lt.mpr (le_of_lt hapos)),
    if_neg (ne_of_gt hapos), hl, hq, hc, hy]

/-- Under IEEE 754 with the `float` parameters of `main1.cpp`, `fixed_threshold` on the 3x3
scenario writes 255 at [1,1] and 0 at the other cells. -/
theorem demo_fixed_mask (i j : Nat) (hi3 : i < 3) (hj3 : j < 3) :
    (sweepPre (fixed_value (ieeeArith Real.log) demoFloatParams) 3 3
      (absdiff centerFrame (constFrame 3 3 0))).data i j = if i = 1 ∧ j = 1 then 255 else 0 := by
  obtain ⟨y, hy, lo, hi⟩ := demo_fixed_thresh_bounds
  rw [fixed_sweep_data, if_pos ⟨hi3, hj3⟩, fixed_value_eq, hy]
  have hd : (absdiff centerFrame (constFrame 3 3 0)).get i j =
      if i = 1 ∧ j = 1 then 255 else 0 := by
    unfold Mat.get absdiff centerFrame constFrame
    simp only
    rw [if_pos ⟨hi3, hj3⟩]
    split_ifs <;> simp
  rw [hd]
  by_cases h : i = 1 ∧ j = 1
  · rw [if_pos h, if_pos]
    show Fl.gt (binary64.round (((255 : Nat) : ℝ) ^ 2)) (.fin y) = true
    have e : binary64.round (((255 : Nat) : ℝ) ^ 2) = .fin 65025 := by
      have e2 : (((255 : Nat) : ℝ) ^ 2) = 65025 := by norm_num
      rw [e2]
      apply binary64.round_of_rep ⟨65025, 0, by norm_num, by decide, by decide⟩
      simp only [binary64]
      rw [abs_of_pos (by norm_num)]
      norm_num
    rw [e]
    simp only [Fl.gt, decide_eq_true_eq]
    linarith
  · rw [if_neg h, if_neg]
    rw [pow2u_zero]
    show ¬ Fl.gt (.fin 0) (.fin y) = true
    simp only [Fl.gt, decide_eq_true_eq]
    intro h0
    linarith

/-- C10: with theta = 1, sigma_s = 1.22, T = 2, A the all-zero 3x3 frame and B the 3x3 frame that
is zero except B[1,1] = 255, the fixed threshold 2*1.22^2*ln(5) lies strictly between 4.79 and
4.80, and `fixed_threshold(A,B)` is 255 at [1,1] and 0 at the other eight cells.  This holds for
the source's expression evaluated without rounding (`exactArith Real.log`, sigma_s = 122/100)
and for the program run under IEEE 754 (`ieeeArith Real.log`) with the parameters stored in
`float`s (sigma_s = 1.22f): the computed threshold is a finite number strictly between 4.79 and
4.80, and the mask is the same. -/
theorem center_pixel_scenario :
    (479 / 100 : ℝ) < 2 * (122 / 100) ^ 2 * Real.log 5 ∧
    2 * (122 / 100) ^ 2 * Real.log 5 < (480 / 100 : ℝ) ∧
    2 * (demoParams : motion_detection ℝ).sigma_s ^ 2 *
        Real.log ((demoParams : motion_detection ℝ).theta *
          (5 * (demoParams : motion_detection ℝ).sigma_s) /
          (demoParams : motion_detection ℝ).sigma_s) =
      2 * (122 / 100) ^ 2 * Real.log 5 ∧
    (exactArith Real.log).mul
        ((exactArith Real.log).mul (exactArith Real.log).two
          ((exactArith Real.log).pow2 (demoParams : motion_detection ℝ).sigma_s))
        ((exactArith Real.log).log
          ((exactArith Real.log).div
            ((exactArith Real.log).mul (demoParams : motion_detection ℝ).theta
              ((exactArith Real.log).imulf 5 (demoParams : motion_detection ℝ).sigma_s))
            (demoParams : motion_detection ℝ).sigma_s)) =
      2 * (122 / 100) ^ 2 * Real.log 5 ∧
    (∃ R, fixed_threshold (exactArith Real.log) demoParams (constFrame 3 3 0) centerFrame =
        .ok R ∧
      R.rows = 3 ∧ R.cols = 3 ∧
      ∀ i j, i < 3 → j < 3 → R.get i j = if i = 1 ∧ j = 1 then 255 else 0) ∧
    binary32.round (122 / 100 : ℝ) = .fin (10234102 / 8388608) ∧
    (∃ y : ℝ,
      (ieeeArith Real.log).mul
          ((ieeeArith Real.log).mul (ieeeArith Real.log).two
            ((ieeeArith Real.log).pow2 (demoFloatParams : motion_detection (Fl ℝ)).sigma_s))
          ((ieeeArith Real.log).log
            ((ieeeArith Real.log).div
              ((ieeeArith Real.log).mul (demoFloatParams : motion_detection (Fl ℝ)).theta
                ((ieeeArith Real.log).imulf 5
                  (demoFloatParams : motion_detection (Fl ℝ)).sigma_s))
              (demoFloatParams : motion_detection (Fl ℝ)).sigma_s)) = .fin y ∧
      479 / 100 < y ∧ y < 480 / 100) ∧
    ∃ R, fixed_threshold (ieeeArith Real.log) demoFloatParams (constFrame 3 3 0) centerFrame =
        .ok R ∧
      R.rows = 3 ∧ R.cols = 3 ∧
      ∀ i j, i < 3 → j < 3 → R.get i j = if i = 1 ∧ j = 1 then 255 else 0 := by
  obtain ⟨lo, hi⟩ := log_five_bounds
  have b1 : (479 / 100 : ℝ) < 2 * (122 / 100) ^ 2 * Real.log 5 := by nlinarith
  have b2 : 2 * (122 / 100) ^ 2 * Real.log 5 < (480 / 100 : ℝ) := by nlinarith
  have b3 : (exactArith Real.log).mul
        ((exactArith Real.log).mul (exactArith Real.log).two
          ((exactArith Real.log).pow2 (demoParams : motion_detection ℝ).sigma_s))
        ((exactArith Real.log).log
          ((exactArith Real.log).div
            ((exactArith Real.log).mul (demoParams : motion_detection ℝ).theta
              ((exactArith Real.log).imulf 5 (demoParams : motion_detection ℝ).sigma_s))
            (demoParams : motion_detection ℝ).sigma_s)) =
      2 * (122 / 100) ^ 2 * Real.log 5 := by
    simp only [exactArith, Int.cast_ofNat]
    exact demo_threshold_eq
  refine ⟨b1, b2, demo_threshold_eq, b3, ⟨_,
    fixed_threshold_ok (exactArith Real.log) demoParams (constFrame 3 3 0) centerFrame rfl rfl,
    ?_, ?_, ?_⟩, round32_demo_sigma, demo_fixed_thresh_bounds, _,
    fixed_threshold_ok (ieeeArith Real.log) demoFloatParams (constFrame 3 3 0) centerFrame
      rfl rfl, ?_, ?_, ?_⟩
  · rw [sweepPre_rows]
    rfl
  · rw [sweepPre_cols]
    rfl
  · intro i j hi3 hj3
    unfold Mat.get
    rw [fixed_sweep_data]
    have hin : i < (constFrame 3 3 0).rows ∧ j < (constFrame 3 3 0).cols := ⟨hi3, hj3⟩
    rw [if_pos hin]
    unfold fixed_value
    simp only [exactArith, Int.cast_ofNat, decide_eq_true_eq]
    rw [demo_threshold_eq]
    have hd : (absdiff centerFrame (constFrame 3 3 0)).get i j =
        if i = 1 ∧ j = 1 then 255 else 0 := by
      unfold Mat.get absdiff centerFrame constFrame
      simp only
      rw [if_pos ⟨hi3, hj3⟩]
      split_ifs <;> simp
    rw [hd]
    by_cases h : i = 1 ∧ j = 1
    · rw [if_pos h, if_pos]
      norm_num
      linarith
    · rw [if_neg h, if_neg]
      norm_num
      linarith
  · rw [sweepPre_rows]
    rfl
  · rw [sweepPre_cols]
    rfl
  · intro i j hi3 hj3
    exact demo_fixed_mask i j hi3 hj3

end MotionDetection
